import Mathlib

/-!
Verification of the `codegen` crate's emission engine against its design
specification.  Strings are modelled as `List Char`; the indentation-aware
writer (`src/formatter.rs`) is translated into explicit state passing on a
`Formatter` record, and each rendering routine of the crate becomes a pure
Lean function on that state.  Fallible operations (panics and assertion
failures in the Rust source) are modelled with `Except CodegenErr`.
-/

namespace Codegen

/-- Strings are modelled as lists of characters. -/
abbrev Str := List Char

/-- `DEFAULT_INDENT` from `src/formatter.rs`. -/
def DEFAULT_INDENT : Nat := 4

/-- The `Formatter` state from `src/formatter.rs`: destination buffer,
current indentation width in spaces, and spaces per indentation step. -/
structure Formatter where
  dst : Str
  spaces : Nat
  indent : Nat
deriving DecidableEq, Repr

/-- `Formatter::new`: fresh formatter over a destination buffer. -/
def Formatter.new (dst : Str) : Formatter :=
  { dst := dst, spaces := 0, indent := DEFAULT_INDENT }

/-- `Formatter::is_start_of_line` on a raw buffer: the buffer is empty or its
last byte is a newline. -/
def solDst (d : Str) : Bool :=
  d.isEmpty || (d.getLast? == some '\n')

/-- `Formatter::is_start_of_line`. -/
def Formatter.isStartOfLine (f : Formatter) : Bool :=
  solDst f.dst

/-- Strip one trailing carriage return from a reversed line accumulator and
reverse it back; mirrors how `str::lines` drops the `\r` of a `\r\n`
terminator. -/
def stripCRrev (acc : Str) : Str :=
  if acc.head? = some '\r' then acc.tail.reverse else acc.reverse

/-- Accumulator-based model of Rust's `str::lines`: split on `'\n'`, strip a
single `'\r'` immediately preceding each `'\n'`, and drop the final segment
when it is empty (i.e. when the string is empty or ends with `'\n'`). -/
def rustLinesAux : Str → Str → List Str
  | [], acc => if acc.isEmpty then [] else [acc.reverse]
  | c :: rest, acc =>
    if c = '\n' then stripCRrev acc :: rustLinesAux rest []
    else rustLinesAux rest (c :: acc)

/-- Model of Rust's `str::lines`. -/
def rustLines (s : Str) : List Str :=
  rustLinesAux s []

/-- The loop body of `Formatter::write_str` (`src/formatter.rs` lines 68-89):
for each line, emit a `'\n'` separator unless it is the first line, indent
when `should_indent` holds and the line is non-empty, then emit the line. -/
def writeLinesLoop (spaces : Nat) : List Str → Str → Bool → Bool → Str
  | [], dst, _, _ => dst
  | line :: rest, dst, first, shouldIndent =>
    let dst1 := if first then dst else dst ++ ['\n']
    let doIndent := shouldIndent && (!line.isEmpty) && (line.head? != some '\n')
    let dst2 := if doIndent then dst1 ++ List.replicate spaces ' ' else dst1
    writeLinesLoop spaces rest (dst2 ++ line) false true

/-- `Formatter::write_str`: write `s` line by line, then re-append the final
newline when `s` ends with one. -/
def Formatter.writeStr (f : Formatter) (s : Str) : Formatter :=
  let withLines := writeLinesLoop f.spaces (rustLines s) f.dst true f.isStartOfLine
  { f with dst := if s.getLast? = some '\n' then withLines ++ ['\n'] else withLines }

/-- One-character step semantics of the writer: a newline is appended
verbatim; any other character is preceded by the indentation when the buffer
sits at the start of a line. -/
def stepChar (spaces : Nat) (d : Str) (c : Char) : Str :=
  if c = '\n' then d ++ ['\n']
  else if solDst d then d ++ List.replicate spaces ' ' ++ [c]
  else d ++ [c]

/-- Folding the one-character step over a string. -/
def charFold (spaces : Nat) (d : Str) (s : Str) : Str :=
  s.foldl (stepChar spaces) d

/-- Collapse every `"\r\n"` pair to `"\n"`; this is the preprocessing that
`str::lines` effectively applies to terminated lines. -/
def normCRLF : Str → Str
  | [] => []
  | [c] => [c]
  | c1 :: c2 :: rest =>
    if c1 = '\r' ∧ c2 = '\n' then '\n' :: normCRLF rest
    else c1 :: normCRLF (c2 :: rest)

/-- Strip one trailing carriage return (direct form). -/
def stripCR (l : Str) : Str :=
  if l.getLast? = some '\r' then l.dropLast else l

/-! ### Relating the line loop to the character fold -/
/-- The lines of a string joined by `'\n'` separators. -/
def interLines : List Str → Str
  | [] => []
  | l :: ls => l ++ ls.flatMap (fun l2 => '\n' :: l2)

/-- Trailing-newline marker used by `write_str`. -/
def trailNL (s : Str) : Str :=
  if s.getLast? = some '\n' then ['\n'] else []

/-! ### Line-level specification of `write_str` -/
/-- A line is prefixed with exactly `spaces` spaces iff the writer is at the
start of a line and the line is non-empty. -/
def indentLine (sp : Nat) (sol : Bool) (l : Str) : Str :=
  if sol && !l.isEmpty then List.replicate sp ' ' ++ l else l

/-- Spec-side rendering of a list of lines: the first line is indented
according to the incoming start-of-line flag, every further line is preceded
by a newline and indented iff non-empty. -/
def specLines (sp : Nat) (sol : Bool) : List Str → Str
  | [] => []
  | l :: ls => indentLine sp sol l ++ ls.flatMap (fun l2 => '\n' :: indentLine sp true l2)

/-- Spec-side description of what `write(s)` appends to the buffer, from the
claim: `s` split into its lines, a newline per line boundary crossed, each
line indented iff at start of line and non-empty, and a trailing newline iff
`s` ends with one. -/
def specAppend (sp : Nat) (sol : Bool) (s : Str) : Str :=
  specLines sp sol (rustLines s) ++ trailNL s

/-! ### Blocks and scoped indentation -/
/-- Error taxonomy of the crate (panics and assertion failures at mutation
or render time). -/
inductive CodegenErr where
  | invalidShape
  | missingBody
  | invalidVisibility
  | assertionFailed
deriving DecidableEq, Repr

/-- The opening half of `Formatter::block`: a single space unless at the
start of a line, then `"{\n"`, then the indentation increase performed by
`Formatter::indent` (`self.spaces += self.indent`). -/
def blockOpen (f : Formatter) : Formatter :=
  let f1 := if f.isStartOfLine then f else f.writeStr [' ']
  let f2 := f1.writeStr ['\x7b', '\n']
  { f2 with spaces := f2.spaces + f2.indent }

/-- `Formatter::block` with the body modelled as a state transformer that
reports success or failure; on failure the `?` operator skips the closing
brace, but `Formatter::indent` has already restored `spaces` by subtracting
`self.indent`. -/
def Formatter.block (f : Formatter) (body : Formatter → Formatter × Bool) :
    Formatter × Bool :=
  match body (blockOpen f) with
  | (f4, ok) =>
    let f5 := { f4 with spaces := f4.spaces - f4.indent }
    if ok then (f5.writeStr ['\x7d', '\n'], true) else (f5, false)

/-- `Formatter::block` with the body in the `Except` error monad, used by
the renderers; a body error propagates before the closing brace is written. -/
def Formatter.blockE (f : Formatter) (body : Formatter → Except CodegenErr Formatter) :
    Except CodegenErr Formatter :=
  match body (blockOpen f) with
  | .error e => .error e
  | .ok f4 => .ok (({ f4 with spaces := f4.spaces - f4.indent }).writeStr ['\x7d', '\n'])

/-! ### The type-expression model (`src/type_def.rs`, `src/generics.rs`) -/
/-- String-literal helper. -/
def str (s : String) : Str := s.toList

/-- `Type` from `src/type_def.rs` with its `Generics` (`src/generics.rs`)
inlined: a name, documentation lines (never rendered by `Type::fmt`), the
generics' lifetimes, and the generics' type parameters. -/
inductive Ty where
  | mk (name : Str) (docs : List Str) (lifetimes : List Str) (generics : List Ty) : Ty
deriving Repr

def Ty.name : Ty → Str
  | .mk n _ _ _ => n

def Ty.new (name : Str) : Ty := .mk name [] [] []

/-- The lifetimes loop of `Generics::fmt_generics`: after each lifetime a
`", "` follows when it is not the last or when type parameters follow. -/
def fmtLifetimes (gensNonempty : Bool) : List Str → Formatter → Formatter
  | [], f => f
  | [l], f =>
    let f := f.writeStr l
    if gensNonempty then f.writeStr [',', ' '] else f
  | l :: rest, f => fmtLifetimes gensNonempty rest ((f.writeStr l).writeStr [',', ' '])

mutual
/-- `Type::fmt`: the name followed by the generics. -/
def Ty.fmt : Ty → Formatter → Formatter
  | .mk name _ lifetimes gens, f => fmtGenerics lifetimes gens (f.writeStr name)

/-- `Generics::fmt_generics`: nothing when both lists are empty, otherwise
an angle-bracketed comma-separated list, lifetimes first. -/
def fmtGenerics (lifetimes : List Str) (gens : List Ty) (f : Formatter) : Formatter :=
  if lifetimes.isEmpty && gens.isEmpty then f
  else
    let f := f.writeStr ['<']
    let f := fmtLifetimes (!gens.isEmpty) lifetimes f
    let f := fmtTyList gens f
    f.writeStr ['>']

/-- The type-parameter loop of `Generics::fmt_generics`: `", "` after every
element except the last. -/
def fmtTyList : List Ty → Formatter → Formatter
  | [], f => f
  | [t], f => t.fmt f
  | t :: rest, f => fmtTyList rest ((t.fmt f).writeStr [',', ' '])
end

/-! ### Visibility (`src/vis.rs`) -/
inductive Vis where
  | Private
  | Pub
  | PubCrate
  | PubSuper
deriving DecidableEq, Repr

/-- `Vis::vis_string`. -/
def Vis.visString : Vis → Option Str
  | .Private => none
  | .Pub => some (str "pub")
  | .PubCrate => some (str "pub(crate)")
  | .PubSuper => some (str "pub(super)")

/-- `Vis::fmt`: `write!(formatter, "{} ", vis_string)` when a modifier is
present. -/
def Vis.fmt (v : Vis) (f : Formatter) : Formatter :=
  match v.visString with
  | some s => (f.writeStr s).writeStr [' ']
  | none => f

/-! ### Documentation (`src/docs.rs`) and attributes (`src/attributes.rs`) -/
structure Docs where
  lines : List Str
deriving Repr

/-- The literal `"/// {}\n"` that `Docs::fmt_docs` tests with `starts_with`
(the raw format string, braces included). -/
def docMarker : Str := str "/// \x7b\x7d\n"

/-- One iteration of `Docs::fmt_docs`: a line already starting with the
format-string literal is written verbatim, otherwise it is wrapped as
`"/// " ++ line ++ "\n"`. -/
def fmtDocsLoop : List Str → Formatter → Formatter
  | [], f => f
  | l :: rest, f =>
    let f :=
      if docMarker.isPrefixOf l then f.writeStr l
      else ((f.writeStr (str "/// ")).writeStr l).writeStr ['\n']
    fmtDocsLoop rest f

def Docs.fmtDocs (d : Docs) (f : Formatter) : Formatter :=
  fmtDocsLoop d.lines f

/-- `Docs::push_doc` splits its argument with `str::lines`. -/
def Docs.pushDoc (d : Docs) (line : Str) : Docs :=
  { lines := d.lines ++ rustLines line }

structure Attributes where
  attrs : List Str
deriving Repr

/-- One iteration of `Attributes::fmt_attrs`: add the `#[` / `]` wrappers
when missing, then a newline. -/
def fmtAttrsLoop : List Str → Formatter → Formatter
  | [], f => f
  | a :: rest, f =>
    let f := if (str "#[").isPrefixOf a then f else f.writeStr (str "#[")
    let f := f.writeStr a
    let f := if (str "]").isSuffixOf a then f else f.writeStr (str "]")
    fmtAttrsLoop rest (f.writeStr ['\n'])

def Attributes.fmtAttrs (a : Attributes) (f : Formatter) : Formatter :=
  fmtAttrsLoop a.attrs f

def Attributes.pushAttr (a : Attributes) (attr : Str) : Attributes :=
  { attrs := a.attrs ++ [attr] }

/-! ### Bounds (`src/bounds.rs`) -/
structure Bound where
  name : Str
  bounds : List Ty
deriving Repr

inductive BoundEndsWith where
  | semiColon
  | comma
deriving DecidableEq, Repr

/-- The requirement loop of `Bound::fmt_bound`: `" + "` before every
requirement except the first. -/
def fmtBoundTysRest : List Ty → Formatter → Formatter
  | [], f => f
  | t :: rest, f => fmtBoundTysRest rest (t.fmt (f.writeStr (str " + ")))

def fmtBoundTys : List Ty → Formatter → Formatter
  | [], f => f
  | t :: rest, f => fmtBoundTysRest rest (t.fmt f)

/-- `Bound::fmt_bound`: the bare subject when there are no requirements,
otherwise `subject:` followed by the `" + "`-joined requirements; then the
terminator (`";\n"` or `",\n"`) selected by `ends_with`. -/
def Bound.fmtBound (b : Bound) (endsWith : BoundEndsWith) (f : Formatter) : Formatter :=
  let f :=
    if b.bounds.isEmpty then f.writeStr b.name
    else fmtBoundTys b.bounds ((f.writeStr b.name).writeStr [':'])
  match endsWith with
  | .semiColon => f.writeStr [';', '\n']
  | .comma => f.writeStr [',', '\n']

structure Bounds where
  bounds : List Bound
deriving Repr

def fmtBoundsLoop : List Bound → Formatter → Formatter
  | [], f => f
  | b :: rest, f => fmtBoundsLoop rest (b.fmtBound .comma f)

/-- `Bounds::fmt_bounds`: nothing when empty, otherwise `"\nwhere\n"` and
one comma-terminated bound per line. -/
def Bounds.fmtBounds (bs : Bounds) (f : Formatter) : Formatter :=
  if bs.bounds.isEmpty then f
  else fmtBoundsLoop bs.bounds (f.writeStr (str "\nwhere\n"))

/-! ### Fields (`src/field.rs`, `src/fields.rs`) -/
structure Field where
  name : Option Str
  ty : Ty
  docs : Docs
  attrs : Attributes
  vis : Vis
deriving Repr

/-- `Field::new_named`. -/
def Field.newNamed (name : Str) (ty : Ty) : Field :=
  { name := some name, ty := ty, docs := ⟨[]⟩, attrs := ⟨[]⟩, vis := .Private }

/-- `Field::fmt_field`: docs, attributes, `name: `, the type, `",\n"`. -/
def Field.fmtField (fl : Field) (f : Formatter) : Formatter :=
  let f := fl.docs.fmtDocs f
  let f := fl.attrs.fmtAttrs f
  let f :=
    match fl.name with
    | some n => (f.writeStr n).writeStr [':', ' ']
    | none => f
  (fl.ty.fmt f).writeStr [',', '\n']

/-- `Fields` from `src/fields.rs`. -/
inductive Fields where
  | Empty
  | Tuple (tys : List Ty)
  | Named (fields : List Field)
deriving Repr

/-- `Fields::push_named`: commits `Empty` to `Named`, appends on `Named`,
and panics (`"field list is named"`) on `Tuple`. -/
def Fields.pushNamed : Fields → Field → Except CodegenErr Fields
  | .Empty, fld => .ok (.Named [fld])
  | .Named fs, fld => .ok (.Named (fs ++ [fld]))
  | .Tuple _, _ => .error .invalidShape

/-- `Fields::named`. -/
def Fields.named (fs : Fields) (name : Str) (ty : Ty) : Except CodegenErr Fields :=
  fs.pushNamed (Field.newNamed name ty)

/-- `Fields::add_named` delegates to `Fields::named` (it additionally
returns a reference to the new field, which has no state effect). -/
def Fields.addNamed (fs : Fields) (name : Str) (ty : Ty) : Except CodegenErr Fields :=
  fs.named name ty

/-- `Fields::tuple`: commits `Empty` to `Tuple`, appends on `Tuple`, and
panics (`"field list is tuple"`) on `Named`. -/
def Fields.tuple : Fields → Ty → Except CodegenErr Fields
  | .Empty, ty => .ok (.Tuple [ty])
  | .Tuple ts, ty => .ok (.Tuple (ts ++ [ty]))
  | .Named _, _ => .error .invalidShape

/-- `Fields::add_tuple`: appends on `Tuple` and panics on anything else,
including `Empty`. -/
def Fields.addTuple : Fields → Ty → Except CodegenErr Fields
  | .Tuple ts, ty => .ok (.Tuple (ts ++ [ty]))
  | _, _ => .error .invalidShape

def fmtFieldsLoop : List Field → Formatter → Formatter
  | [], f => f
  | fl :: rest, f => fmtFieldsLoop rest (fl.fmtField f)

def fmtTupleRest : List Ty → Formatter → Formatter
  | [], f => f
  | t :: rest, f => fmtTupleRest rest (t.fmt (f.writeStr [',', ' ']))

def fmtTupleLoop : List Ty → Formatter → Formatter
  | [], f => f
  | t :: rest, f => fmtTupleRest rest (t.fmt f)

/-- `Fields::fmt`: named fields render in a block one per line; tuple
fields render parenthesised and comma-separated; `Empty` renders nothing.
The `assert!(!fields.is_empty())` assertions are modelled as
`assertionFailed` errors. -/
def Fields.fmt : Fields → Formatter → Except CodegenErr Formatter
  | .Named fields, f =>
    if fields.isEmpty then .error .assertionFailed
    else f.blockE (fun g => .ok (fmtFieldsLoop fields g))
  | .Tuple tys, f =>
    if tys.isEmpty then .error .assertionFailed
    else .ok ((fmtTupleLoop tys (f.writeStr ['('])).writeStr [')'])
  | .Empty, f => .ok f

/-- Iterated `push_named`. -/
def runPushNamed (fs : Fields) (flds : List Field) : Except CodegenErr Fields :=
  List.foldlM Fields.pushNamed fs flds

/-- Iterated `tuple`. -/
def runTuple (fs : Fields) (tys : List Ty) : Except CodegenErr Fields :=
  List.foldlM Fields.tuple fs tys

/-- The public mutation surface of `Fields`. -/
inductive FieldsOp where
  | pushNamed (fld : Field)
  | named (name : Str) (ty : Ty)
  | addNamed (name : Str) (ty : Ty)
  | tuple (ty : Ty)
  | addTuple (ty : Ty)

def applyFieldsOp (fs : Fields) : FieldsOp → Except CodegenErr Fields
  | .pushNamed fld => fs.pushNamed fld
  | .named n t => fs.named n t
  | .addNamed n t => fs.addNamed n t
  | .tuple t => fs.tuple t
  | .addTuple t => fs.addTuple t

def runFieldsOps (fs : Fields) (ops : List FieldsOp) : Except CodegenErr Fields :=
  List.foldlM applyFieldsOp fs ops

/-- The invariant behind the `Fields::fmt` assertions: committed shapes are
non-empty. -/
def Fields.wfShape : Fields → Bool
  | .Empty => true
  | .Tuple ts => !ts.isEmpty
  | .Named fs => !fs.isEmpty

/-! ### `TypeDef` (`src/type_def.rs`) -/
/-- The `TypeDef` aggregate from `src/type_def.rs`: identity type (with
generics), visibility, documentation, derive list, lint-allow list, optional
representation hint, where-bounds and free attributes. -/
structure TypeDef where
  ty : Ty
  vis : Vis
  docs : Docs
  derive : List Str
  allow : List Str
  repr : Option Str
  bounds : Bounds
  attrs : Attributes

/-- `TypeDef::new`. -/
def TypeDef.new (name : Str) : TypeDef :=
  { ty := Ty.new name, vis := .Private, docs := ⟨[]⟩, derive := [], allow := [],
    repr := none, bounds := ⟨[]⟩, attrs := ⟨[]⟩ }

/-- `TypeDef::derive` (builder). -/
def TypeDef.pushDerive (td : TypeDef) (name : Str) : TypeDef :=
  { td with derive := td.derive ++ [name] }

/-- `TypeDef::allow` (builder). -/
def TypeDef.pushAllow (td : TypeDef) (allow : Str) : TypeDef :=
  { td with allow := td.allow ++ [allow] }

/-- `TypeDef::repr` (builder). -/
def TypeDef.setRepr (td : TypeDef) (repr : Str) : TypeDef :=
  { td with repr := some repr }

/-- `push_doc` passthrough (builder). -/
def TypeDef.pushDoc (td : TypeDef) (line : Str) : TypeDef :=
  { td with docs := td.docs.pushDoc line }

/-- `push_attr` passthrough (builder). -/
def TypeDef.pushAttr (td : TypeDef) (attr : Str) : TypeDef :=
  { td with attrs := td.attrs.pushAttr attr }

/-- `set_vis` passthrough (builder). -/
def TypeDef.setVis (td : TypeDef) (vis : Vis) : TypeDef :=
  { td with vis := vis }

/-- The loop of `TypeDef::fmt_allow`: `#[allow(..)]` one per line. -/
def fmtAllowLoop : List Str → Formatter → Formatter
  | [], f => f
  | a :: rest, f =>
    fmtAllowLoop rest (((f.writeStr (str "#[allow(")).writeStr a).writeStr (str ")]\n"))

def TypeDef.fmtAllow (td : TypeDef) (f : Formatter) : Formatter :=
  fmtAllowLoop td.allow f

/-- The name loop of `TypeDef::fmt_derive`: `", "` before every name except
the first. -/
def fmtDeriveRest : List Str → Formatter → Formatter
  | [], f => f
  | n :: rest, f => fmtDeriveRest rest ((f.writeStr [',', ' ']).writeStr n)

def fmtDeriveLoop : List Str → Formatter → Formatter
  | [], f => f
  | n :: rest, f => fmtDeriveRest rest (f.writeStr n)

/-- `TypeDef::fmt_derive`: one combined `#[derive(...)]` line when the list
is non-empty. -/
def TypeDef.fmtDerive (td : TypeDef) (f : Formatter) : Formatter :=
  if td.derive.isEmpty then f
  else (fmtDeriveLoop td.derive (f.writeStr (str "#[derive("))).writeStr (str ")]\n")

/-- `TypeDef::fmt_repr`: one `#[repr(..)]` line when present. -/
def TypeDef.fmtRepr (td : TypeDef) (f : Formatter) : Formatter :=
  match td.repr with
  | some r => ((f.writeStr (str "#[repr(")).writeStr r).writeStr (str ")]\n")
  | none => f

/-- The parent loop of `TypeDef::fmt_head`: `": "` before the first parent,
`" + "` before every further one. -/
def fmtParentsRest : List Ty → Formatter → Formatter
  | [], f => f
  | t :: rest, f => fmtParentsRest rest (t.fmt (f.writeStr (str " + ")))

def fmtParents : List Ty → Formatter → Formatter
  | [], f => f
  | t :: rest, f => fmtParentsRest rest (t.fmt (f.writeStr (str ": ")))

/-- `TypeDef::fmt_head`: docs, lint-allows, derives, repr, free attributes,
visibility, keyword + space, identity type, parent list, bounds — in this
order. -/
def TypeDef.fmtHead (td : TypeDef) (keyword : Str) (parents : List Ty)
    (f : Formatter) : Formatter :=
  let f := td.docs.fmtDocs f
  let f := td.fmtAllow f
  let f := td.fmtDerive f
  let f := td.fmtRepr f
  let f := td.attrs.fmtAttrs f
  let f := td.vis.fmt f
  let f := (f.writeStr keyword).writeStr [' ']
  let f := td.ty.fmt f
  let f := fmtParents parents f
  td.bounds.fmtBounds f

/-! ### Pure text images of the renderers -/
/-- Join with a separator between consecutive elements. -/
def sepList (sep : Str) : List Str → Str
  | [] => []
  | [x] => x
  | x :: rest => x ++ sep ++ sepList sep rest

def lifetimesText (gensNonempty : Bool) : List Str → Str
  | [] => []
  | [l] => l ++ (if gensNonempty then [',', ' '] else [])
  | l :: rest => l ++ [',', ' '] ++ lifetimesText gensNonempty rest

mutual
def tyText : Ty → Str
  | .mk name _ lts gens => name ++ genericsText lts gens

def genericsText (lts : List Str) (gens : List Ty) : Str :=
  if lts.isEmpty && gens.isEmpty then []
  else ['<'] ++ lifetimesText (!gens.isEmpty) lts ++ tyListText gens ++ ['>']

def tyListText : List Ty → Str
  | [] => []
  | [t] => tyText t
  | t :: rest => tyText t ++ [',', ' '] ++ tyListText rest
end

def visText (v : Vis) : Str :=
  match v.visString with
  | some s => s ++ [' ']
  | none => []

def docLineText (l : Str) : Str :=
  if docMarker.isPrefixOf l then l else str "/// " ++ l ++ ['\n']

def docsText (d : Docs) : Str :=
  d.lines.flatMap docLineText

def attrLineText (a : Str) : Str :=
  (if (str "#[").isPrefixOf a then [] else str "#[") ++ a
    ++ (if (str "]").isSuffixOf a then [] else str "]") ++ ['\n']

def attrsText (a : Attributes) : Str :=
  a.attrs.flatMap attrLineText

def allowText (allows : List Str) : Str :=
  allows.flatMap (fun a => str "#[allow(" ++ a ++ str ")]\n")

def deriveText (ds : List Str) : Str :=
  if ds.isEmpty then [] else str "#[derive(" ++ sepList [',', ' '] ds ++ str ")]\n"

def reprText : Option Str → Str
  | some r => str "#[repr(" ++ r ++ str ")]\n"
  | none => []

def boundEndText : BoundEndsWith → Str
  | .semiColon => [';', '\n']
  | .comma => [',', '\n']

/-- Text of one rendered `Bound`: bare subject without requirements, else
`subject:` and the `" + "`-joined requirements; then the terminator. -/
def boundText (b : Bound) (endsWith : BoundEndsWith) : Str :=
  (if b.bounds.isEmpty then b.name
   else b.name ++ [':'] ++ sepList (str " + ") (b.bounds.map tyText))
    ++ boundEndText endsWith

def boundsText (bs : Bounds) : Str :=
  if bs.bounds.isEmpty then []
  else str "\nwhere\n" ++ bs.bounds.flatMap (fun b => boundText b .comma)

def parentsText (ps : List Ty) : Str :=
  if ps.isEmpty then [] else str ": " ++ sepList (str " + ") (ps.map tyText)

/-- The full header text in the fixed emission order of the claim:
docs → lint-allows → derive line → repr line → free attributes → visibility →
keyword and identity expression → parent list → constraint set. -/
def headText (td : TypeDef) (keyword : Str) (parents : List Ty) : Str :=
  docsText td.docs ++ allowText td.allow ++ deriveText td.derive
    ++ reprText td.repr ++ attrsText td.attrs ++ visText td.vis
    ++ keyword ++ [' '] ++ tyText td.ty ++ parentsText parents
    ++ boundsText td.bounds

/-! ### Callables (`src/function.rs`) -/
/-- `Generics` from `src/generics.rs` as a standalone aggregate (used by
`Function`). -/
structure Generics where
  lifetimes : List Str
  generics : List Ty

def Generics.fmt (g : Generics) (f : Formatter) : Formatter :=
  fmtGenerics g.lifetimes g.generics f

/-- Modelled from the spec: `src/body.rs` (`Body`) and `src/block.rs`
(`Block`) are declared in `lib.rs` but their files are missing from the
sources.  Per §4.4 a callable body holds freeform lines and nested blocks,
rendered in insertion order; a line is written followed by a newline, a
nested block renders through the block primitive. -/
inductive Body where
  | line (s : Str) : Body
  | blk (inner : List Body) : Body

mutual
/-- Modelled from the spec: rendering of one body entry (see `Body`). The
`blk` case is `Formatter.blockE` unfolded so the recursion is first-order. -/
def Body.fmt : Body → Formatter → Except CodegenErr Formatter
  | .line s, f => .ok ((f.writeStr s).writeStr ['\n'])
  | .blk inner, f =>
    match Body.fmtList inner (blockOpen f) with
    | .error e => .error e
    | .ok f4 => .ok (({ f4 with spaces := f4.spaces - f4.indent }).writeStr ['\x7d', '\n'])

/-- Body entries rendered in insertion order, stopping at the first error. -/
def Body.fmtList : List Body → Formatter → Except CodegenErr Formatter
  | [], f => .ok f
  | b :: rest, f =>
    match Body.fmt b f with
    | .error e => .error e
    | .ok f' => Body.fmtList rest f'
end

/-- `Function` from `src/function.rs`. -/
structure Function where
  name : Str
  docs : Docs
  allow : Option Str
  vis : Vis
  generics : Generics
  argSelf : Option Str
  args : List Field
  ret : Option Ty
  bounds : Bounds
  body : Option (List Body)
  attrs : Attributes
  externAbi : Option Str
  isAsync : Bool

/-- `Function::new`: a fresh function with an empty body present. -/
def Function.new (name : Str) : Function :=
  { name := name, docs := ⟨[]⟩, allow := none, vis := .Private,
    generics := ⟨[], []⟩, argSelf := none, args := [], ret := none,
    bounds := ⟨[]⟩, body := some [], attrs := ⟨[]⟩, externAbi := none,
    isAsync := false }

/-- `Function::new_trait_fn`: as `new` but with no body. -/
def Function.newTraitFn (name : Str) : Function :=
  { Function.new name with body := none }

/-- The argument loop of `Function::fmt` after the first argument: `", "`
then the argument as a field. -/
def fmtArgsRest : List Field → Formatter → Formatter
  | [], f => f
  | a :: rest, f => fmtArgsRest rest (a.fmtField (f.writeStr [',', ' ']))

/-- The argument loop of `Function::fmt`: the first argument is preceded by
`", "` only when a self parameter was written. -/
def fmtArgs (args : List Field) (hasSelf : Bool) (f : Formatter) : Formatter :=
  match args with
  | [] => f
  | a :: rest =>
    fmtArgsRest rest (if hasSelf then a.fmtField (f.writeStr [',', ' ']) else a.fmtField f)

/-- The writes of `Function::fmt` preceding the trait-visibility assertion:
docs, the optional `#[allow(..)]` line, and the free attributes. -/
def Function.fmtHeaderPre (fn : Function) (f : Formatter) : Formatter :=
  let f := fn.docs.fmtDocs f
  let f :=
    match fn.allow with
    | some a => ((f.writeStr (str "#[allow(")).writeStr a).writeStr (str ")]\n")
    | none => f
  fn.attrs.fmtAttrs f

/-- The writes of `Function::fmt` between the visibility assertion and the
body: visibility, optional extern ABI, optional `async`, `fn` + name,
generics, parenthesised self/args, optional return arrow, bounds. -/
def Function.fmtHeaderPost (fn : Function) (f : Formatter) : Formatter :=
  let f := fn.vis.fmt f
  let f :=
    match fn.externAbi with
    | some abi => ((f.writeStr (str "extern \"")).writeStr abi).writeStr (str "\" ")
    | none => f
  let f := if fn.isAsync then f.writeStr (str "async ") else f
  let f := (f.writeStr (str "fn ")).writeStr fn.name
  let f := fn.generics.fmt f
  let f := f.writeStr ['(']
  let f :=
    match fn.argSelf with
    | some s => f.writeStr s
    | none => f
  let f := fmtArgs fn.args fn.argSelf.isSome f
  let f := f.writeStr [')']
  let f :=
    match fn.ret with
    | some r => r.fmt (f.writeStr (str " -> "))
    | none => f
  fn.bounds.fmtBounds f

/-- `Function::fmt`: header, the trait-visibility assertion
(`assert!(self.vis == Vis::Private)` when `is_trait`), then either the body
block, or in trait context a bare `";\n"`, or the `MissingBody` panic. -/
def Function.fmt (fn : Function) (isTrait : Bool) (f : Formatter) :
    Except CodegenErr Formatter :=
  let f1 := fn.fmtHeaderPre f
  if isTrait ∧ fn.vis ≠ Vis.Private then .error .invalidVisibility
  else
    let f2 := fn.fmtHeaderPost f1
    match fn.body with
    | some body => f2.blockE (Body.fmtList body)
    | none => if !isTrait then .error .missingBody else .ok (f2.writeStr (str ";\n"))

/-! ### Document scope and import consolidation -/
/-- Remove duplicates keeping the first occurrence of each element. -/
def dedupFirst (xs : List Str) : List Str :=
  xs.foldl (fun acc x => if x ∈ acc then acc else acc ++ [x]) []

/-- Modelled from the spec: `src/scope.rs` is declared in `lib.rs` but its
file is missing from the sources.  Per §3/§4.5 a document accumulates
imports as (path, importedName) pairs before the first render; the item list
of the document is irrelevant to import consolidation and is omitted. -/
structure Scope where
  imports : List (Str × Str)

/-- Modelled from the spec: `Scope::import` records one (path, name) pair. -/
def Scope.importPair (s : Scope) (path ty : Str) : Scope :=
  { imports := s.imports ++ [(path, ty)] }

/-- Modelled from the spec: one consolidated import statement — a bare
qualified statement for a single name, a brace group for several. -/
def importLine (path : Str) (names : List Str) : Str :=
  match names with
  | [n] => str "use " ++ path ++ str "::" ++ n ++ str ";\n"
  | _ => str "use " ++ path ++ str "::\x7b" ++ sepList [',', ' '] names ++ str "\x7d;\n"

/-- Modelled from the spec: at render time imports are grouped by exact path
equality (paths in first-occurrence order), each group listing its distinct
imported names in insertion order. -/
def renderImportLines (ps : List (Str × Str)) : List Str :=
  (dedupFirst (ps.map Prod.fst)).map fun path =>
    importLine path (dedupFirst ((ps.filter (fun q => q.1 == path)).map Prod.snd))

/-- Modelled from the spec: the import block emitted ahead of all items. -/
def Scope.renderImports (s : Scope) : Str :=
  (renderImportLines s.imports).flatten

/-! ### Basic buffer lemmas -/
theorem solDst_concat (d : Str) (c : Char) : solDst (d ++ [c]) = (c == '\n') := by
  simp [solDst]

theorem solDst_append_replicate_concat (d : Str) (n : Nat) (c : Char) :
    solDst (d ++ (List.replicate n ' ' ++ [c])) = (c == '\n') := by
  rw [← List.append_assoc]
  exact solDst_concat _ c

theorem stripCRrev_eq (acc : Str) : stripCRrev acc = stripCR acc.reverse := by
  match acc with
  | [] => simp [stripCRrev, stripCR]
  | a :: t =>
    by_cases h : a = '\r'
    · subst h
      simp [stripCRrev, stripCR, List.getLast?_concat, List.dropLast_concat]
    · have h1 : stripCRrev (a :: t) = (a :: t).reverse := by
        simp [stripCRrev, h]
      rw [h1]
      unfold stripCR
      rw [if_neg]
      simp [List.getLast?_concat, h]

theorem charFold_append (sp : Nat) (d : Str) (x y : Str) :
    charFold sp d (x ++ y) = charFold sp (charFold sp d x) y := by
  unfold charFold
  rw [List.foldl_append]

/-- Folding over a newline-free string with the buffer mid-line appends the
string verbatim. -/
theorem charFold_not_sol (sp : Nat) (l : Str) :
    ∀ d, '\n' ∉ l → solDst d = false → charFold sp d l = d ++ l := by
  induction l with
  | nil => intro d _ _; simp [charFold]
  | cons c t ih =>
    intro d hnl hsol
    have hc : c ≠ '\n' := fun h => hnl (h ▸ List.mem_cons_self c t)
    have ht : '\n' ∉ t := fun h => hnl (List.mem_cons_of_mem c h)
    have : charFold sp d (c :: t) = charFold sp (stepChar sp d c) t := rfl
    rw [this]
    have hstep : stepChar sp d c = d ++ [c] := by
      simp [stepChar, hc, hsol]
    rw [hstep, ih (d ++ [c]) ht (by simp [solDst_concat, hc])]
    simp

/-- Folding over a newline-free string with the buffer at the start of a line
indents iff the string is non-empty, then appends it. -/
theorem charFold_sol (sp : Nat) (l : Str) (d : Str) (hnl : '\n' ∉ l)
    (hsol : solDst d = true) :
    charFold sp d l = d ++ (if l.isEmpty then [] else List.replicate sp ' ') ++ l := by
  cases l with
  | nil => simp [charFold]
  | cons c t =>
    have hc : c ≠ '\n' := fun h => hnl (h ▸ List.mem_cons_self c t)
    have ht : '\n' ∉ t := fun h => hnl (List.mem_cons_of_mem c h)
    have : charFold sp d (c :: t) = charFold sp (stepChar sp d c) t := rfl
    rw [this]
    have hstep : stepChar sp d c = d ++ List.replicate sp ' ' ++ [c] := by
      simp [stepChar, hc, hsol]
    rw [hstep, charFold_not_sol sp t _ ht
      (by simp [solDst_append_replicate_concat, hc])]
    simp

theorem head_ne_newline {l : Str} (hnl : '\n' ∉ l) : (l.head? != some '\n') = true := by
  cases l with
  | nil => rfl
  | cons c t =>
    have : c ≠ '\n' := fun h => hnl (h ▸ List.mem_cons_self c t)
    simp [this]

theorem loop_rest (sp : Nat) (L : List Str) (hL : ∀ l ∈ L, '\n' ∉ l) :
    ∀ d, writeLinesLoop sp L d false true
      = charFold sp d (L.flatMap fun l => '\n' :: l) := by
  induction L with
  | nil => intro d; simp [writeLinesLoop, charFold]
  | cons l L' ih =>
    intro d
    have hl : '\n' ∉ l := hL l (List.mem_cons_self l L')
    have hL' : ∀ x ∈ L', '\n' ∉ x := fun x hx => hL x (List.mem_cons_of_mem l hx)
    rw [List.flatMap_cons, charFold_append]
    have hfold : charFold sp d ('\n' :: l)
        = (d ++ ['\n']) ++ (if l.isEmpty then [] else List.replicate sp ' ') ++ l := by
      have h1 : charFold sp d ('\n' :: l) = charFold sp (d ++ ['\n']) l := by
        simp [charFold, List.foldl_cons, stepChar]
      rw [h1, charFold_sol sp l (d ++ ['\n']) hl (by simp [solDst])]
    rw [hfold, ← ih hL']
    simp only [writeLinesLoop, if_neg (Bool.false_ne_true), head_ne_newline hl,
      Bool.true_and, Bool.and_true]
    cases hemp : l.isEmpty <;> simp [hemp]

theorem loop_first (sp : Nat) (L : List Str) (hL : ∀ l ∈ L, '\n' ∉ l) (d : Str) :
    writeLinesLoop sp L d true (solDst d) = charFold sp d (interLines L) := by
  cases L with
  | nil => simp [writeLinesLoop, interLines, charFold]
  | cons l L' =>
    have hl : '\n' ∉ l := hL l (List.mem_cons_self l L')
    have hL' : ∀ x ∈ L', '\n' ∉ x := fun x hx => hL x (List.mem_cons_of_mem l hx)
    rw [interLines, charFold_append]
    have hfold : charFold sp d l
        = d ++ (if solDst d && !l.isEmpty then List.replicate sp ' ' else []) ++ l := by
      cases hsol : solDst d
      · rw [charFold_not_sol sp l d hl hsol]; simp
      · rw [charFold_sol sp l d hl hsol]
        cases hemp : l.isEmpty <;> simp [hemp]
    rw [hfold, ← loop_rest sp L' hL']
    simp only [writeLinesLoop, if_pos rfl, head_ne_newline hl, Bool.and_true]
    cases hsol : solDst d <;> cases hemp : l.isEmpty <;> simp [hsol, hemp]

/-! ### Lines produced by `rustLines` are newline-free -/
theorem stripCRrev_noNL {acc : Str} (h : '\n' ∉ acc) : '\n' ∉ stripCRrev acc := by
  unfold stripCRrev
  split
  · intro hmem
    exact h (List.mem_of_mem_tail (List.mem_reverse.mp hmem))
  · intro hmem
    exact h (List.mem_reverse.mp hmem)

theorem rustLinesAux_noNL :
    ∀ (s acc : Str), '\n' ∉ acc → ∀ l ∈ rustLinesAux s acc, '\n' ∉ l := by
  intro s
  induction s with
  | nil =>
    intro acc hacc l hl
    unfold rustLinesAux at hl
    split at hl
    · exact absurd hl (List.not_mem_nil l)
    · rw [List.mem_singleton] at hl
      subst hl
      intro hmem
      exact hacc (List.mem_reverse.mp hmem)
  | cons c rest ih =>
    intro acc hacc l hl
    unfold rustLinesAux at hl
    split at hl
    · rcases List.mem_cons.mp hl with h | h
      · subst h; exact stripCRrev_noNL hacc
      · exact ih [] (List.not_mem_nil '\n') l h
    · next hc =>
      exact ih (c :: acc) (by
        intro hmem
        rcases List.mem_cons.mp hmem with h | h
        · exact hc h.symm
        · exact hacc h) l hl

theorem rustLines_noNL (s : Str) : ∀ l ∈ rustLines s, '\n' ∉ l :=
  rustLinesAux_noNL s [] (List.not_mem_nil '\n')

theorem rustLinesAux_ne_nil : ∀ (s acc : Str), s ≠ [] → rustLinesAux s acc ≠ [] := by
  intro s
  induction s with
  | nil => intro acc h; exact absurd rfl h
  | cons c rest ih =>
    intro acc _
    unfold rustLinesAux
    split
    · exact List.cons_ne_nil _ _
    · cases rest with
      | nil => simp [rustLinesAux]
      | cons r rs => exact ih (c :: acc) (List.cons_ne_nil r rs)

/-! ### `normCRLF` versus `rustLines` -/
theorem norm_id_of_noNL : ∀ (l : Str), '\n' ∉ l → normCRLF l = l
  | [], _ => rfl
  | [_], _ => rfl
  | c1 :: c2 :: rest, h => by
    have hc2 : c2 ≠ '\n' := fun hh => h (hh ▸ List.mem_cons_of_mem c1 (List.mem_cons_self c2 rest))
    have ht : '\n' ∉ c2 :: rest := fun hh => h (List.mem_cons_of_mem c1 hh)
    unfold normCRLF
    rw [if_neg (fun hand => hc2 hand.2), norm_id_of_noNL (c2 :: rest) ht]

theorem getLast?_cons_ne_nil {a : Char} {l : Str} (hl : l ≠ []) :
    (a :: l).getLast? = l.getLast? := by
  cases l with
  | nil => exact absurd rfl hl
  | cons b t => exact List.getLast?_cons_cons

theorem getLast?_ne_newline_of_noNL {l : Str} (h : '\n' ∉ l) :
    l.getLast? ≠ some '\n' := by
  intro hl
  exact h (List.mem_of_mem_getLast? (Option.mem_def.mpr hl))

theorem stripCR_cons (a : Char) (l : Str) (hl : l ≠ []) :
    stripCR (a :: l) = a :: stripCR l := by
  cases l with
  | nil => exact absurd rfl hl
  | cons b t =>
    unfold stripCR
    rw [List.getLast?_cons_cons]
    split
    · rw [List.dropLast_cons₂]
    · rfl

theorem norm_newline_cons (rest : Str) :
    normCRLF ('\n' :: rest) = '\n' :: normCRLF rest := by
  cases rest with
  | nil => rfl
  | cons r rs =>
    rw [normCRLF.eq_3, if_neg (by simp)]

theorem norm_split_newline : ∀ (l rest : Str), '\n' ∉ l →
    normCRLF (l ++ '\n' :: rest) = stripCR l ++ '\n' :: normCRLF rest
  | [], rest, _ => by
    rw [List.nil_append, norm_newline_cons,
      show stripCR ([] : Str) = [] by decide, List.nil_append]
  | [a], rest, h => by
    show normCRLF (a :: '\n' :: rest) = stripCR [a] ++ '\n' :: normCRLF rest
    rw [normCRLF.eq_3]
    by_cases hr : a = '\r'
    · subst hr
      rw [if_pos ⟨rfl, rfl⟩, show stripCR ['\r'] = [] by decide, List.nil_append]
    · rw [if_neg (fun hand => hr hand.1), norm_newline_cons]
      have hstrip : stripCR [a] = [a] := by
        unfold stripCR
        rw [if_neg (by simp [hr])]
      rw [hstrip, List.singleton_append]
  | a :: b :: l', rest, h => by
    have hb : '\n' ∉ b :: l' := fun hh => h (List.mem_cons_of_mem a hh)
    have hbne : b ≠ '\n' := fun hh => hb (hh ▸ List.mem_cons_self b l')
    show normCRLF (a :: b :: (l' ++ '\n' :: rest))
      = stripCR (a :: b :: l') ++ '\n' :: normCRLF rest
    rw [normCRLF.eq_3, if_neg (fun hand => hbne hand.2),
      show b :: (l' ++ '\n' :: rest) = (b :: l') ++ '\n' :: rest from rfl,
      norm_split_newline (b :: l') rest hb,
      stripCR_cons a (b :: l') (List.cons_ne_nil b l'), List.cons_append]

theorem norm_eq_inter :
    ∀ (s acc : Str), '\n' ∉ acc →
      normCRLF (acc.reverse ++ s)
        = interLines (rustLinesAux s acc) ++ trailNL (acc.reverse ++ s) := by
  intro s
  induction s with
  | nil =>
    intro acc hacc
    rw [List.append_nil, norm_id_of_noNL _ (fun hh => hacc (List.mem_reverse.mp hh))]
    unfold rustLinesAux
    have : trailNL acc.reverse = [] := by
      unfold trailNL
      rw [if_neg (getLast?_ne_newline_of_noNL (fun hh => hacc (List.mem_reverse.mp hh)))]
    rw [this]
    split
    · next hemp =>
      rw [List.isEmpty_iff.mp hemp]
      rfl
    · simp [interLines]
  | cons c s' ih =>
    intro acc hacc
    by_cases hc : c = '\n'
    · subst hc
      rw [norm_split_newline acc.reverse s' (fun hh => hacc (List.mem_reverse.mp hh))]
      have hlines : rustLinesAux ('\n' :: s') acc
          = stripCRrev acc :: rustLinesAux s' [] := by
        rw [rustLinesAux.eq_2, if_pos rfl]
      rw [hlines, interLines, stripCRrev_eq, List.append_assoc]
      congr 1
      by_cases hs' : s' = []
      · subst hs'
        simp [rustLinesAux, trailNL, normCRLF, List.getLast?_concat]
      · obtain ⟨y, M, hYM⟩ := List.exists_cons_of_ne_nil (rustLinesAux_ne_nil s' [] hs')
        have hih := ih [] (List.not_mem_nil '\n')
        rw [List.reverse_nil, List.nil_append] at hih
        rw [hih, hYM, interLines]
        have htr : trailNL (acc.reverse ++ '\n' :: s') = trailNL s' := by
          unfold trailNL
          rw [List.getLast?_append_of_ne_nil _ (List.cons_ne_nil '\n' s'),
            getLast?_cons_ne_nil hs']
        rw [htr, List.flatMap_cons]
        simp
    · have hrw : acc.reverse ++ c :: s' = (c :: acc).reverse ++ s' := by
        simp
      rw [hrw]
      have hacc' : '\n' ∉ c :: acc := by
        intro hh
        rcases List.mem_cons.mp hh with h | h
        · exact hc h.symm
        · exact hacc h
      rw [ih (c :: acc) hacc']
      have hlines : rustLinesAux (c :: s') acc = rustLinesAux s' (c :: acc) := by
        rw [rustLinesAux.eq_2, if_neg hc]
      rw [hlines]

/-- `write_str` is equivalent to folding the one-character step over the
`\r\n`-collapsed input. -/
theorem writeStr_eq_charFold (f : Formatter) (s : Str) :
    f.writeStr s = { f with dst := charFold f.spaces f.dst (normCRLF s) } := by
  have hnorm := norm_eq_inter s [] (List.not_mem_nil '\n')
  rw [List.reverse_nil, List.nil_append] at hnorm
  unfold Formatter.writeStr
  have hloop := loop_first f.spaces (rustLines s) (rustLines_noNL s) f.dst
  have hfold : charFold f.spaces f.dst (normCRLF s)
      = charFold f.spaces (charFold f.spaces f.dst (interLines (rustLines s))) (trailNL s) := by
    rw [hnorm, charFold_append]
    rfl
  rw [hfold, ← hloop]
  unfold Formatter.isStartOfLine
  unfold trailNL
  split
  · simp [charFold, stepChar]
  · simp [charFold]

/-! ### Concatenation compatibility of `normCRLF` -/
theorem norm_append : ∀ (a b : Str),
    ¬(a.getLast? = some '\r' ∧ b.head? = some '\n') →
    normCRLF (a ++ b) = normCRLF a ++ normCRLF b
  | [], b, _ => by simp [normCRLF]
  | [c], b, h => by
    cases b with
    | nil => simp [normCRLF]
    | cons d b' =>
      have hnot : ¬(c = '\r' ∧ d = '\n') := by
        intro ⟨h1, h2⟩
        exact h ⟨by simp [h1], by simp [h2]⟩
      show normCRLF (c :: d :: b') = normCRLF [c] ++ normCRLF (d :: b')
      rw [normCRLF.eq_3, if_neg hnot, show normCRLF [c] = [c] from rfl,
        List.singleton_append]
  | c1 :: c2 :: a', b, h => by
    have hlast : (c1 :: c2 :: a').getLast? = (c2 :: a').getLast? :=
      List.getLast?_cons_cons
    show normCRLF (c1 :: c2 :: (a' ++ b))
      = normCRLF (c1 :: c2 :: a') ++ normCRLF b
    by_cases hcr : c1 = '\r' ∧ c2 = '\n'
    · rw [normCRLF.eq_3, normCRLF.eq_3, if_pos hcr, if_pos hcr]
      have ha' : ¬(a'.getLast? = some '\r' ∧ b.head? = some '\n') := by
        cases a' with
        | nil => intro ⟨h1, _⟩; exact absurd h1 (by simp)
        | cons x xs =>
          intro ⟨h1, h2⟩
          refine h ⟨?_, h2⟩
          rw [hlast, getLast?_cons_ne_nil (List.cons_ne_nil x xs)]
          exact h1
      rw [norm_append a' b ha']
      rfl
    · rw [normCRLF.eq_3, normCRLF.eq_3, if_neg hcr, if_neg hcr]
      have hmid : ¬((c2 :: a').getLast? = some '\r' ∧ b.head? = some '\n') := by
        intro ⟨h1, h2⟩
        exact h ⟨by rw [hlast]; exact h1, h2⟩
      rw [show c2 :: (a' ++ b) = (c2 :: a') ++ b from rfl,
        norm_append (c2 :: a') b hmid]
      rfl

/-! ### Split/merge of consecutive writes -/
/-- Two consecutive `write_str` calls merge into one, provided the split
point does not separate a `"\r\n"` pair. -/
theorem writeStr_split_merge (f : Formatter) (a b : Str)
    (h : ¬(a.getLast? = some '\r' ∧ b.head? = some '\n')) :
    (f.writeStr a).writeStr b = f.writeStr (a ++ b) := by
  rw [writeStr_eq_charFold f a, writeStr_eq_charFold, writeStr_eq_charFold]
  simp only
  rw [norm_append a b h, charFold_append]

theorem writeStr_spaces (f : Formatter) (s : Str) : (f.writeStr s).spaces = f.spaces := rfl

theorem writeStr_indent (f : Formatter) (s : Str) : (f.writeStr s).indent = f.indent := rfl

theorem loop_rest_spec (sp : Nat) (L : List Str) (hL : ∀ l ∈ L, '\n' ∉ l) :
    ∀ d, writeLinesLoop sp L d false true
      = d ++ L.flatMap (fun l => '\n' :: indentLine sp true l) := by
  induction L with
  | nil => intro d; simp [writeLinesLoop]
  | cons l L' ih =>
    intro d
    have hl : '\n' ∉ l := hL l (List.mem_cons_self l L')
    have hL' : ∀ x ∈ L', '\n' ∉ x := fun x hx => hL x (List.mem_cons_of_mem l hx)
    rw [List.flatMap_cons]
    simp only [writeLinesLoop, if_neg (Bool.false_ne_true), head_ne_newline hl,
      Bool.true_and, Bool.and_true]
    rw [ih hL']
    unfold indentLine
    cases hemp : l.isEmpty <;> simp [hemp]

theorem loop_first_spec (sp : Nat) (L : List Str) (hL : ∀ l ∈ L, '\n' ∉ l) (d : Str) :
    writeLinesLoop sp L d true (solDst d) = d ++ specLines sp (solDst d) L := by
  cases L with
  | nil => simp [writeLinesLoop, specLines]
  | cons l L' =>
    have hl : '\n' ∉ l := hL l (List.mem_cons_self l L')
    have hL' : ∀ x ∈ L', '\n' ∉ x := fun x hx => hL x (List.mem_cons_of_mem l hx)
    rw [specLines]
    simp only [writeLinesLoop, if_pos rfl, head_ne_newline hl, Bool.and_true]
    rw [loop_rest_spec sp L' hL']
    unfold indentLine
    cases hsol : solDst d <;> cases hemp : l.isEmpty <;> simp [hsol, hemp]

/-- The buffer after `write(s)` is the old buffer followed by the spec-side
rendering of `s`. -/
theorem writeStr_dst_spec (f : Formatter) (s : Str) :
    (f.writeStr s).dst = f.dst ++ specAppend f.spaces f.isStartOfLine s := by
  unfold Formatter.writeStr specAppend
  rw [Formatter.isStartOfLine, loop_first_spec f.spaces (rustLines s) (rustLines_noNL s)]
  unfold trailNL
  split <;> simp

/-! ### Last-character tracking -/
theorem norm_ne_nil : ∀ (s : Str), s ≠ [] → normCRLF s ≠ []
  | [], h => absurd rfl h
  | [c], _ => by rw [show normCRLF [c] = [c] from rfl]; exact List.cons_ne_nil c []
  | c1 :: c2 :: rest, _ => by
    rw [normCRLF.eq_3]
    split
    · exact List.cons_ne_nil _ _
    · exact List.cons_ne_nil _ _

theorem norm_getLast : ∀ (s : Str) (c : Char), c ≠ '\n' → s.getLast? = some c →
    (normCRLF s).getLast? = some c
  | [], _, _, h => by simp at h
  | [a], c, _, h => by
    rw [show normCRLF [a] = [a] from rfl]
    exact h
  | c1 :: c2 :: rest, c, hc, h => by
    have hlast : (c1 :: c2 :: rest).getLast? = (c2 :: rest).getLast? :=
      List.getLast?_cons_cons
    rw [normCRLF.eq_3]
    split
    · next hcr =>
      by_cases hr : rest = []
      · subst hr
        rw [hlast] at h
        simp at h
        rw [hcr.2] at h
        exact absurd h.symm hc
      · have h' : rest.getLast? = some c := by
          rw [hlast, getLast?_cons_ne_nil hr] at h
          exact h
        rw [getLast?_cons_ne_nil (norm_ne_nil rest hr)]
        exact norm_getLast rest c hc h'
    · have h' : (c2 :: rest).getLast? = some c := by rw [← hlast]; exact h
      rw [getLast?_cons_ne_nil (norm_ne_nil (c2 :: rest) (List.cons_ne_nil c2 rest))]
      exact norm_getLast (c2 :: rest) c hc h'

theorem charFold_getLast_concat (sp : Nat) (d l : Str) (c : Char) :
    (charFold sp d (l ++ [c])).getLast? = some c := by
  rw [charFold_append]
  show (stepChar sp (charFold sp d l) c).getLast? = some c
  unfold stepChar
  split
  · next hc => rw [hc, List.getLast?_concat]
  · split <;> rw [List.getLast?_concat]

/-! ## Claim C1 -/
/-- C1 as stated fails: splitting `"x\r\ny"` between the carriage return and
the newline changes the output, because a single `write` strips the `'\r'`
of the `"\r\n"` pair while the split calls keep it. -/
theorem C1_counterexample :
    ¬ ((Formatter.new []).writeStr ['x', '\r']).writeStr ['\n', 'y']
      = (Formatter.new []).writeStr (['x', '\r'] ++ ['\n', 'y']) := by
  decide

/-- C1 (amended): for every formatter state and all strings `a`, `b`,
`write(a); write(b)` produces the same state as `write(a ++ b)`, provided the
split point does not fall between a `'\r'` and a following `'\n'`. -/
theorem C1_write_split (f : Formatter) (a b : Str)
    (h : ¬(a.getLast? = some '\r' ∧ b.head? = some '\n')) :
    (f.writeStr a).writeStr b = f.writeStr (a ++ b) :=
  writeStr_split_merge f a b h

theorem C1_write_split_witness :
    ((Formatter.new []).writeStr ['a', '\n']).writeStr ['b']
      = (Formatter.new []).writeStr (['a', '\n'] ++ ['b']) :=
  C1_write_split (Formatter.new []) ['a', '\n'] ['b'] (by decide)

/-! ## Claim C2 -/
/-- C2: `write(s)` appends `s` split into its lines with a newline per line
boundary, a line being prefixed with exactly `currentIndent` spaces iff the
writer was at the start of a line and the line is non-empty; writing the
empty string is a no-op; and writing text without a trailing newline leaves
the buffer ending in the last character of `s`, not in an added newline. -/
theorem C2_write_semantics (f : Formatter) (s : Str) :
    (f.writeStr s).dst = f.dst ++ specAppend f.spaces f.isStartOfLine s
    ∧ f.writeStr [] = f
    ∧ (s ≠ [] → s.getLast? ≠ some '\n' →
        (f.writeStr s).dst.getLast? = s.getLast?) := by
  refine ⟨writeStr_dst_spec f s, rfl, ?_⟩
  intro hne hnl
  obtain h | ⟨q, c, hqc⟩ := List.eq_nil_or_concat s
  · exact absurd h hne
  · rw [List.concat_eq_append] at hqc
    subst hqc
    have hlast : (q ++ [c]).getLast? = some c := List.getLast?_concat q
    have hc : c ≠ '\n' := fun hh => hnl (hh ▸ hlast)
    obtain h | ⟨q', c', hq'⟩ := List.eq_nil_or_concat (normCRLF (q ++ [c]))
    · exact absurd h (norm_ne_nil _ hne)
    · rw [List.concat_eq_append] at hq'
      have hcc : c' = c := by
        have h1 := norm_getLast (q ++ [c]) c hc hlast
        rw [hq', List.getLast?_concat] at h1
        exact Option.some_inj.mp h1
      rw [writeStr_eq_charFold]
      show (charFold f.spaces f.dst (normCRLF (q ++ [c]))).getLast? = _
      rw [hq', hcc, charFold_getLast_concat, hlast]

theorem C2_write_semantics_witness :
    (['x'] : Str) ≠ [] ∧ (['x'] : Str).getLast? ≠ some '\n'
    ∧ ((Formatter.new []).writeStr ['x']).dst.getLast? = (['x'] : Str).getLast? :=
  ⟨by decide, by decide,
    (C2_write_semantics (Formatter.new []) ['x']).2.2 (by decide) (by decide)⟩

theorem blockOpen_spaces (f : Formatter) : (blockOpen f).spaces = f.spaces + f.indent := by
  unfold blockOpen
  by_cases hsol : f.isStartOfLine <;> simp [hsol, writeStr_spaces, writeStr_indent]

theorem blockOpen_indent (f : Formatter) : (blockOpen f).indent = f.indent := by
  unfold blockOpen
  by_cases hsol : f.isStartOfLine <;> simp [hsol, writeStr_indent]

/-! ## Claim C3 -/
/-- C3: `block(body)` writes a single space when not at the start of a line,
then an opening brace and newline, runs `body` with `spaces` increased by one
`indent` step, then a closing brace and newline; the indentation increase is
restored to its prior value afterwards, also when the body fails, and a fresh
formatter uses the default step of 4 spaces. -/
theorem C3_block_indent (f : Formatter) (body : Formatter → Formatter × Bool)
    (h : ∀ g, (body g).1.spaces = g.spaces ∧ (body g).1.indent = g.indent) :
    (f.block body).1.spaces = f.spaces
    ∧ (f.block body).1.indent = f.indent
    ∧ f.block body =
        (let pre := if f.isStartOfLine then f else f.writeStr [' ']
         let opened := pre.writeStr ['\x7b', '\n']
         let res := body { opened with spaces := f.spaces + f.indent }
         if res.2 then (({ res.1 with spaces := f.spaces }).writeStr ['\x7d', '\n'], true)
         else ({ res.1 with spaces := f.spaces }, false))
    ∧ (Formatter.new f.dst).indent = 4 := by
  have hopen : blockOpen f =
      { (if f.isStartOfLine then f else f.writeStr [' ']).writeStr ['\x7b', '\n'] with
        spaces := f.spaces + f.indent } := by
    unfold blockOpen
    by_cases hsol : f.isStartOfLine <;> simp [hsol, writeStr_spaces, writeStr_indent]
  rcases hB : body (blockOpen f) with ⟨g, ok⟩
  have hg := h (blockOpen f)
  rw [hB] at hg
  have hgsp : g.spaces = f.spaces + f.indent := by
    rw [hg.1, blockOpen_spaces]
  have hgind : g.indent = f.indent := by
    rw [hg.2, blockOpen_indent]
  have hrestore : g.spaces - g.indent = f.spaces := by
    rw [hgsp, hgind, Nat.add_sub_cancel]
  have hblock : f.block body =
      (if ok then (({ g with spaces := f.spaces }).writeStr ['\x7d', '\n'], true)
       else ({ g with spaces := f.spaces }, false)) := by
    unfold Formatter.block
    rw [hB]
    simp only [hrestore]
  refine ⟨?_, ?_, ?_, rfl⟩
  · rw [hblock]; cases ok <;> simp [writeStr_spaces]
  · rw [hblock]; cases ok <;> simp [writeStr_indent, hgind]
  · rw [hblock]
    simp only
    rw [← hopen, hB]

/-- Concrete instantiation of C3 with a body that writes one line. -/
theorem C3_block_indent_witness :
    (((Formatter.new []).block fun g => (g.writeStr ['x', '\n'], true)).1.spaces = 0)
    ∧ ((Formatter.new []).block fun g => (g.writeStr ['x', '\n'], true)).1.indent = 4 := by
  have h := C3_block_indent (Formatter.new [])
    (fun g => (g.writeStr ['x', '\n'], true)) (fun g => ⟨rfl, rfl⟩)
  exact ⟨h.1, h.2.1⟩

/-! ## Claim C4 -/
theorem wfShape_preserved {fs fs' : Fields} {op : FieldsOp}
    (hwf : fs.wfShape = true) (h : applyFieldsOp fs op = .ok fs') :
    fs'.wfShape = true := by
  cases op <;> cases fs <;>
    simp_all [applyFieldsOp, Fields.pushNamed, Fields.named, Fields.addNamed,
      Fields.tuple, Fields.addTuple, Fields.wfShape]
  all_goals rw [← h]
  all_goals simp [Fields.wfShape, List.isEmpty_iff]

theorem runPushNamed_named (fs : List Field) (more : List Field) :
    runPushNamed (.Named fs) more = .ok (.Named (fs ++ more)) := by
  induction more generalizing fs with
  | nil => rw [List.append_nil]; rfl
  | cons fld rest ih =>
    show runPushNamed (Fields.Named (fs ++ [fld])) rest = _
    rw [ih (fs ++ [fld]), List.append_assoc]
    rfl

theorem runTuple_tuple (ts : List Ty) (more : List Ty) :
    runTuple (.Tuple ts) more = .ok (.Tuple (ts ++ more)) := by
  induction more generalizing ts with
  | nil => rw [List.append_nil]; rfl
  | cons t rest ih =>
    show runTuple (Fields.Tuple (ts ++ [t])) rest = _
    rw [ih (ts ++ [t]), List.append_assoc]
    rfl

/-- C4: the shape is a one-way state machine.  From `Empty` the first push
of either kind commits the shape; once committed, a push of the other kind
fails with `invalidShape` while pushes of the same kind always succeed and
append in insertion order. -/
theorem C4_shape_state_machine (fld : Field) (t : Ty)
    (fs : List Field) (ts : List Ty) (moreF : List Field) (moreT : List Ty) :
    Fields.Empty.pushNamed fld = .ok (.Named [fld])
    ∧ Fields.Empty.tuple t = .ok (.Tuple [t])
    ∧ (Fields.Tuple ts).pushNamed fld = .error .invalidShape
    ∧ (Fields.Named fs).tuple t = .error .invalidShape
    ∧ (Fields.Named fs).addTuple t = .error .invalidShape
    ∧ (Fields.Named fs).pushNamed fld = .ok (.Named (fs ++ [fld]))
    ∧ (Fields.Tuple ts).tuple t = .ok (.Tuple (ts ++ [t]))
    ∧ (Fields.Tuple ts).addTuple t = .ok (.Tuple (ts ++ [t]))
    ∧ (moreF ≠ [] → runPushNamed .Empty moreF = .ok (.Named moreF))
    ∧ (moreT ≠ [] → runTuple .Empty moreT = .ok (.Tuple moreT)) := by
  refine ⟨rfl, rfl, rfl, rfl, rfl, rfl, rfl, rfl, ?_, ?_⟩
  · intro h
    cases moreF with
    | nil => exact absurd rfl h
    | cons fld0 rest =>
      show runPushNamed (Fields.Named [fld0]) rest = _
      rw [runPushNamed_named [fld0] rest]
      rfl
  · intro h
    cases moreT with
    | nil => exact absurd rfl h
    | cons t0 rest =>
      show runTuple (Fields.Tuple [t0]) rest = _
      rw [runTuple_tuple [t0] rest]
      rfl

theorem C4_shape_state_machine_witness :
    ([Field.newNamed (str "a") (Ty.new (str "u8"))] : List Field) ≠ []
    ∧ ([Ty.new (str "u8")] : List Ty) ≠ []
    ∧ runPushNamed .Empty [Field.newNamed (str "a") (Ty.new (str "u8"))]
        = .ok (.Named [Field.newNamed (str "a") (Ty.new (str "u8"))])
    ∧ runTuple .Empty [Ty.new (str "u8")] = .ok (.Tuple [Ty.new (str "u8")]) := by
  have h := C4_shape_state_machine (Field.newNamed (str "a") (Ty.new (str "u8")))
    (Ty.new (str "u8")) [] [] [Field.newNamed (str "a") (Ty.new (str "u8"))]
    [Ty.new (str "u8")]
  exact ⟨List.cons_ne_nil _ _, List.cons_ne_nil _ _,
    h.2.2.2.2.2.2.2.2.1 (List.cons_ne_nil _ _),
    h.2.2.2.2.2.2.2.2.2 (List.cons_ne_nil _ _)⟩

/-! ## Claim C10 -/
theorem runFieldsOps_wfShape {fs fs' : Fields} {ops : List FieldsOp}
    (hwf : fs.wfShape = true) (h : runFieldsOps fs ops = .ok fs') :
    fs'.wfShape = true := by
  induction ops generalizing fs with
  | nil =>
    simp only [runFieldsOps, List.foldlM] at h
    cases h
    exact hwf
  | cons op rest ih =>
    show Fields.wfShape fs' = true
    rcases hstep : applyFieldsOp fs op with e | fs1
    · rw [show runFieldsOps fs (op :: rest)
        = Except.error e from by
          unfold runFieldsOps
          rw [List.foldlM_cons, hstep]
          rfl] at h
      cases h
    · have hrest : runFieldsOps fs1 rest = .ok fs' := by
        rw [show runFieldsOps fs (op :: rest)
          = runFieldsOps fs1 rest from by
            unfold runFieldsOps
            rw [List.foldlM_cons, hstep]
            rfl] at h
        exact h
      exact ih (wfShape_preserved hwf hstep) hrest

/-- C10: any `Fields` value reachable from `Empty` through the public
mutation operations has non-empty `Named`/`Tuple` contents, so the
assertions in `Fields::fmt` never fire and rendering always succeeds. -/
theorem C10_fields_fmt_total (ops : List FieldsOp) (fs : Fields) (f : Formatter)
    (h : runFieldsOps .Empty ops = .ok fs) :
    fs.wfShape = true ∧ (fs.fmt f).isOk = true := by
  have hwf : fs.wfShape = true := runFieldsOps_wfShape (by rfl) h
  refine ⟨hwf, ?_⟩
  cases fs with
  | Empty => rfl
  | Tuple ts =>
    have hne : ts.isEmpty = false := by
      simpa [Fields.wfShape] using hwf
    simp [Fields.fmt, hne, Except.isOk, Except.toBool]
  | Named fls =>
    have hne : fls.isEmpty = false := by
      simpa [Fields.wfShape] using hwf
    simp [Fields.fmt, hne, Formatter.blockE, Except.isOk, Except.toBool]

theorem C10_fields_fmt_total_witness :
    runFieldsOps .Empty [.named (str "a") (Ty.new (str "u8"))]
        = .ok (.Named [Field.newNamed (str "a") (Ty.new (str "u8"))])
    ∧ (Fields.Named [Field.newNamed (str "a") (Ty.new (str "u8"))]).wfShape = true
    ∧ ((Fields.Named [Field.newNamed (str "a") (Ty.new (str "u8"))]).fmt
        (Formatter.new [])).isOk = true := by
  have h := C10_fields_fmt_total [.named (str "a") (Ty.new (str "u8"))]
    (.Named [Field.newNamed (str "a") (Ty.new (str "u8"))]) (Formatter.new []) rfl
  exact ⟨rfl, h.1, h.2⟩

/-! ### Write-composition machinery -/
theorem Formatter.writeStr_nil (f : Formatter) : f.writeStr [] = f := rfl

theorem noCR_split {a b : Str} (h : '\r' ∉ a ++ b) : '\r' ∉ a ∧ '\r' ∉ b := by
  constructor <;> intro hm
  · exact h (List.mem_append.mpr (Or.inl hm))
  · exact h (List.mem_append.mpr (Or.inr hm))

/-- Consecutive writes merge whenever the first written string contains no
carriage return. -/
theorem writeStr_merge_noCR (f : Formatter) (a b : Str) (h : '\r' ∉ a) :
    (f.writeStr a).writeStr b = f.writeStr (a ++ b) :=
  writeStr_split_merge f a b
    (fun hb => h (List.mem_of_mem_getLast? (Option.mem_def.mpr hb.1)))

theorem sepList_cons_flatMap (sep : Str) : ∀ (x : Str) (xs : List Str),
    sepList sep (x :: xs) = x ++ xs.flatMap (fun y => sep ++ y)
  | x, [] => by
    rw [show sepList sep [x] = x from rfl, List.flatMap_nil, List.append_nil]
  | x, y :: ys => by
    rw [show sepList sep (x :: y :: ys) = x ++ sep ++ sepList sep (y :: ys) from rfl,
      sepList_cons_flatMap sep y ys, List.flatMap_cons]
    simp [List.append_assoc]

/-! ### Renderer/text equivalences -/
theorem fmtLifetimes_text (g : Bool) : ∀ (lts : List Str) (f : Formatter),
    '\r' ∉ lifetimesText g lts → fmtLifetimes g lts f = f.writeStr (lifetimesText g lts)
  | [], _, _ => rfl
  | [l], f, h => by
    cases g with
    | true =>
      rw [show lifetimesText true [l] = l ++ [',', ' '] from rfl] at h ⊢
      rw [show fmtLifetimes true [l] f = (f.writeStr l).writeStr [',', ' '] from rfl]
      exact writeStr_merge_noCR f l [',', ' '] (noCR_split h).1
    | false =>
      rw [show lifetimesText false [l] = l ++ [] from rfl,
        show fmtLifetimes false [l] f = f.writeStr l from rfl, List.append_nil]
  | l :: l2 :: rest, f, h => by
    rw [show lifetimesText g (l :: l2 :: rest)
      = l ++ [',', ' '] ++ lifetimesText g (l2 :: rest) from rfl] at h ⊢
    rw [show fmtLifetimes g (l :: l2 :: rest) f
      = fmtLifetimes g (l2 :: rest) ((f.writeStr l).writeStr [',', ' ']) from rfl]
    rw [List.append_assoc] at h
    obtain ⟨h1, h23⟩ := noCR_split h
    obtain ⟨h2, h3⟩ := noCR_split h23
    rw [fmtLifetimes_text g (l2 :: rest) _ h3,
      writeStr_merge_noCR f l [',', ' '] h1,
      writeStr_merge_noCR f (l ++ [',', ' ']) _
        (fun hm => (List.mem_append.mp hm).elim h1 h2)]

mutual
theorem tyFmt_text : ∀ (t : Ty) (f : Formatter), '\r' ∉ tyText t →
    t.fmt f = f.writeStr (tyText t)
  | .mk name docs lts gens, f, h => by
    have hf : Ty.fmt (.mk name docs lts gens) f = fmtGenerics lts gens (f.writeStr name) := by
      simp only [Ty.fmt]
    have ht : tyText (.mk name docs lts gens) = name ++ genericsText lts gens := by
      simp only [tyText]
    rw [ht] at h ⊢
    obtain ⟨h1, h2⟩ := noCR_split h
    rw [hf, fmtGenerics_text lts gens (f.writeStr name) h2,
      writeStr_merge_noCR f name _ h1]

theorem fmtGenerics_text : ∀ (lts : List Str) (gens : List Ty) (f : Formatter),
    '\r' ∉ genericsText lts gens →
    fmtGenerics lts gens f = f.writeStr (genericsText lts gens)
  | lts, gens, f, h => by
    by_cases hemp : (lts.isEmpty && gens.isEmpty) = true
    · have hf : fmtGenerics lts gens f = f := by
        simp only [fmtGenerics, if_pos hemp]
      have ht : genericsText lts gens = [] := by
        simp only [genericsText, if_pos hemp]
      rw [hf, ht, Formatter.writeStr_nil]
    · have hf : fmtGenerics lts gens f
          = (fmtTyList gens (fmtLifetimes (!gens.isEmpty) lts (f.writeStr ['<']))).writeStr ['>'] := by
        simp only [fmtGenerics, if_neg hemp]
      have ht : genericsText lts gens
          = ['<'] ++ lifetimesText (!gens.isEmpty) lts ++ tyListText gens ++ ['>'] := by
        simp only [genericsText, if_neg hemp]
      rw [ht] at h ⊢
      rw [hf]
      obtain ⟨h123, h4⟩ := noCR_split h
      obtain ⟨h12, h3⟩ := noCR_split h123
      obtain ⟨h1, h2⟩ := noCR_split h12
      rw [fmtLifetimes_text (!gens.isEmpty) lts _ h2,
        writeStr_merge_noCR f ['<'] _ h1,
        fmtTyList_text gens _ h3,
        writeStr_merge_noCR f (['<'] ++ lifetimesText (!gens.isEmpty) lts) _
          (fun hm => (List.mem_append.mp hm).elim h1 h2),
        writeStr_merge_noCR f _ ['>']
          (fun hm => (List.mem_append.mp hm).elim
            (fun hmm => (List.mem_append.mp hmm).elim h1 h2) h3)]

theorem fmtTyList_text : ∀ (gens : List Ty) (f : Formatter), '\r' ∉ tyListText gens →
    fmtTyList gens f = f.writeStr (tyListText gens)
  | [], f, _ => by
    rw [show tyListText ([] : List Ty) = [] from by simp only [tyListText],
      show fmtTyList [] f = f from by simp only [fmtTyList], Formatter.writeStr_nil]
  | [t], f, h => by
    have hf : fmtTyList [t] f = t.fmt f := by simp only [fmtTyList]
    have ht : tyListText [t] = tyText t := by simp only [tyListText]
    rw [ht] at h ⊢
    rw [hf]
    exact tyFmt_text t f h
  | t :: t2 :: rest, f, h => by
    have hf : fmtTyList (t :: t2 :: rest) f
        = fmtTyList (t2 :: rest) ((t.fmt f).writeStr [',', ' ']) := by
      simp only [fmtTyList]
    have ht : tyListText (t :: t2 :: rest)
        = tyText t ++ [',', ' '] ++ tyListText (t2 :: rest) := by
      simp only [tyListText]
    rw [ht] at h ⊢
    rw [hf]
    rw [List.append_assoc] at h
    obtain ⟨h1, h23⟩ := noCR_split h
    obtain ⟨h2, h3⟩ := noCR_split h23
    rw [tyFmt_text t f h1, fmtTyList_text (t2 :: rest) _ h3,
      writeStr_merge_noCR f (tyText t) [',', ' '] h1,
      writeStr_merge_noCR f _ _ (fun hm => (List.mem_append.mp hm).elim h1 h2)]
end

theorem visFmt_text (v : Vis) (f : Formatter) :
    v.fmt f = f.writeStr (visText v) := by
  cases v with
  | Private => rfl
  | Pub => exact writeStr_merge_noCR f _ _ (by decide)
  | PubCrate => exact writeStr_merge_noCR f _ _ (by decide)
  | PubSuper => exact writeStr_merge_noCR f _ _ (by decide)

theorem fmtDocsLoop_text : ∀ (ls : List Str) (f : Formatter),
    '\r' ∉ ls.flatMap docLineText →
    fmtDocsLoop ls f = f.writeStr (ls.flatMap docLineText)
  | [], _, _ => rfl
  | l :: rest, f, h => by
    rw [List.flatMap_cons] at h ⊢
    obtain ⟨h1, h2⟩ := noCR_split h
    by_cases hp : docMarker.isPrefixOf l = true
    · have hstep : fmtDocsLoop (l :: rest) f = fmtDocsLoop rest (f.writeStr l) := by
        simp only [fmtDocsLoop, if_pos hp]
      have htext : docLineText l = l := by simp only [docLineText, if_pos hp]
      rw [htext] at h1 ⊢
      rw [hstep, fmtDocsLoop_text rest _ h2, writeStr_merge_noCR f l _ h1]
    · have hstep : fmtDocsLoop (l :: rest) f
          = fmtDocsLoop rest (((f.writeStr (str "/// ")).writeStr l).writeStr ['\n']) := by
        simp only [fmtDocsLoop, if_neg hp]
      have htext : docLineText l = str "/// " ++ l ++ ['\n'] := by
        simp only [docLineText, if_neg hp]
      rw [htext] at h1 ⊢
      obtain ⟨h11, _⟩ := noCR_split h1
      rw [hstep, fmtDocsLoop_text rest _ h2,
        writeStr_merge_noCR f (str "/// ") l (by decide),
        writeStr_merge_noCR f (str "/// " ++ l) ['\n'] h11,
        writeStr_merge_noCR f (str "/// " ++ l ++ ['\n']) _ h1]

theorem Docs.fmtDocs_text (d : Docs) (f : Formatter) (h : '\r' ∉ docsText d) :
    d.fmtDocs f = f.writeStr (docsText d) :=
  fmtDocsLoop_text d.lines f h

theorem fmtAttrsLoop_text : ∀ (attrs : List Str) (f : Formatter),
    '\r' ∉ attrs.flatMap attrLineText →
    fmtAttrsLoop attrs f = f.writeStr (attrs.flatMap attrLineText)
  | [], _, _ => rfl
  | a :: rest, f, h => by
    rw [List.flatMap_cons] at h ⊢
    obtain ⟨h1, h2⟩ := noCR_split h
    by_cases hp : (str "#[").isPrefixOf a = true <;>
      by_cases hs : (str "]").isSuffixOf a = true
    · have htext : attrLineText a = a ++ ['\n'] := by
        simp only [attrLineText, if_pos hp, if_pos hs, List.nil_append, List.append_nil]
      have hstep : fmtAttrsLoop (a :: rest) f
          = fmtAttrsLoop rest ((f.writeStr a).writeStr ['\n']) := by
        simp only [fmtAttrsLoop, if_pos hp, if_pos hs]
      rw [htext] at h1 ⊢
      obtain ⟨h1a, _⟩ := noCR_split h1
      rw [hstep, fmtAttrsLoop_text rest _ h2,
        writeStr_merge_noCR f a ['\n'] h1a,
        writeStr_merge_noCR f (a ++ ['\n']) _ h1]
    · have htext : attrLineText a = a ++ str "]" ++ ['\n'] := by
        simp only [attrLineText, if_pos hp, if_neg hs, List.nil_append]
      have hstep : fmtAttrsLoop (a :: rest) f
          = fmtAttrsLoop rest (((f.writeStr a).writeStr (str "]")).writeStr ['\n']) := by
        simp only [fmtAttrsLoop, if_pos hp, if_neg hs]
      rw [htext] at h1 ⊢
      obtain ⟨h11, _⟩ := noCR_split h1
      obtain ⟨h1a, _⟩ := noCR_split h11
      rw [hstep, fmtAttrsLoop_text rest _ h2,
        writeStr_merge_noCR f a (str "]") h1a,
        writeStr_merge_noCR f (a ++ str "]") ['\n'] h11,
        writeStr_merge_noCR f (a ++ str "]" ++ ['\n']) _ h1]
    · have htext : attrLineText a = str "#[" ++ a ++ ['\n'] := by
        simp only [attrLineText, if_neg hp, if_pos hs, List.append_nil]
      have hstep : fmtAttrsLoop (a :: rest) f
          = fmtAttrsLoop rest (((f.writeStr (str "#[")).writeStr a).writeStr ['\n']) := by
        simp only [fmtAttrsLoop, if_neg hp, if_pos hs]
      rw [htext] at h1 ⊢
      obtain ⟨h11, _⟩ := noCR_split h1
      rw [hstep, fmtAttrsLoop_text rest _ h2,
        writeStr_merge_noCR f (str "#[") a (by decide),
        writeStr_merge_noCR f (str "#[" ++ a) ['\n'] h11,
        writeStr_merge_noCR f (str "#[" ++ a ++ ['\n']) _ h1]
    · have htext : attrLineText a = str "#[" ++ a ++ str "]" ++ ['\n'] := by
        simp only [attrLineText, if_neg hp, if_neg hs]
      have hstep : fmtAttrsLoop (a :: rest) f
          = fmtAttrsLoop rest
            ((((f.writeStr (str "#[")).writeStr a).writeStr (str "]")).writeStr ['\n']) := by
        simp only [fmtAttrsLoop, if_neg hp, if_neg hs]
      rw [htext] at h1 ⊢
      obtain ⟨h111, _⟩ := noCR_split h1
      obtain ⟨h11, _⟩ := noCR_split h111
      rw [hstep, fmtAttrsLoop_text rest _ h2,
        writeStr_merge_noCR f (str "#[") a (by decide),
        writeStr_merge_noCR f (str "#[" ++ a) (str "]") h11,
        writeStr_merge_noCR f (str "#[" ++ a ++ str "]") ['\n'] h111,
        writeStr_merge_noCR f (str "#[" ++ a ++ str "]" ++ ['\n']) _ h1]

theorem Attributes.fmtAttrs_text (a : Attributes) (f : Formatter)
    (h : '\r' ∉ attrsText a) : a.fmtAttrs f = f.writeStr (attrsText a) :=
  fmtAttrsLoop_text a.attrs f h

theorem fmtAllowLoop_text : ∀ (allows : List Str) (f : Formatter),
    '\r' ∉ allowText allows → fmtAllowLoop allows f = f.writeStr (allowText allows)
  | [], _, _ => rfl
  | a :: rest, f, h => by
    rw [show allowText (a :: rest)
      = str "#[allow(" ++ a ++ str ")]\n" ++ allowText rest from
        by rw [allowText, List.flatMap_cons]; rfl] at h ⊢
    obtain ⟨h1, h2⟩ := noCR_split h
    obtain ⟨h11, _⟩ := noCR_split h1
    rw [show fmtAllowLoop (a :: rest) f
      = fmtAllowLoop rest (((f.writeStr (str "#[allow(")).writeStr a).writeStr (str ")]\n"))
      from rfl]
    rw [fmtAllowLoop_text rest _ h2,
      writeStr_merge_noCR f (str "#[allow(") a (by decide),
      writeStr_merge_noCR f (str "#[allow(" ++ a) (str ")]\n") h11,
      writeStr_merge_noCR f (str "#[allow(" ++ a ++ str ")]\n") _ h1]

theorem TypeDef.fmtAllow_text (td : TypeDef) (f : Formatter)
    (h : '\r' ∉ allowText td.allow) : td.fmtAllow f = f.writeStr (allowText td.allow) :=
  fmtAllowLoop_text td.allow f h

theorem fmtDeriveRest_text : ∀ (ds : List Str) (f : Formatter),
    '\r' ∉ ds.flatMap (fun n => [',', ' '] ++ n) →
    fmtDeriveRest ds f = f.writeStr (ds.flatMap fun n => [',', ' '] ++ n)
  | [], _, _ => rfl
  | n :: rest, f, h => by
    rw [List.flatMap_cons] at h ⊢
    obtain ⟨h1, h2⟩ := noCR_split h
    obtain ⟨h1a, _⟩ := noCR_split h1
    rw [show fmtDeriveRest (n :: rest) f
      = fmtDeriveRest rest ((f.writeStr [',', ' ']).writeStr n) from rfl,
      fmtDeriveRest_text rest _ h2,
      writeStr_merge_noCR f [',', ' '] n h1a,
      writeStr_merge_noCR f ([',', ' '] ++ n) _ h1]

theorem fmtDeriveLoop_text : ∀ (ds : List Str) (f : Formatter),
    '\r' ∉ sepList [',', ' '] ds →
    fmtDeriveLoop ds f = f.writeStr (sepList [',', ' '] ds)
  | [], _, _ => rfl
  | n :: rest, f, h => by
    rw [sepList_cons_flatMap] at h ⊢
    obtain ⟨h1, h2⟩ := noCR_split h
    rw [show fmtDeriveLoop (n :: rest) f = fmtDeriveRest rest (f.writeStr n) from rfl,
      fmtDeriveRest_text rest _ h2, writeStr_merge_noCR f n _ h1]

theorem TypeDef.fmtDerive_text (td : TypeDef) (f : Formatter)
    (h : '\r' ∉ deriveText td.derive) :
    td.fmtDerive f = f.writeStr (deriveText td.derive) := by
  by_cases hemp : td.derive.isEmpty = true
  · rw [show td.fmtDerive f = f from by simp only [TypeDef.fmtDerive, if_pos hemp],
      show deriveText td.derive = [] from by simp only [deriveText, if_pos hemp],
      Formatter.writeStr_nil]
  · have htext : deriveText td.derive
        = str "#[derive(" ++ sepList [',', ' '] td.derive ++ str ")]\n" := by
      simp only [deriveText, if_neg hemp]
    rw [htext] at h ⊢
    rw [show td.fmtDerive f
      = (fmtDeriveLoop td.derive (f.writeStr (str "#[derive("))).writeStr (str ")]\n")
      from by simp only [TypeDef.fmtDerive, if_neg hemp]]
    obtain ⟨h1, _⟩ := noCR_split h
    obtain ⟨_, h12⟩ := noCR_split h1
    rw [fmtDeriveLoop_text td.derive _ h12,
      writeStr_merge_noCR f (str "#[derive(") _ (by decide),
      writeStr_merge_noCR f (str "#[derive(" ++ sepList [',', ' '] td.derive) _ h1]

theorem TypeDef.fmtRepr_text (td : TypeDef) (f : Formatter)
    (h : '\r' ∉ reprText td.repr) : td.fmtRepr f = f.writeStr (reprText td.repr) := by
  cases hr : td.repr with
  | none =>
    rw [show td.fmtRepr f = f from by simp only [TypeDef.fmtRepr, hr],
      show reprText none = [] from rfl, Formatter.writeStr_nil]
  | some r =>
    rw [hr] at h
    have htext : reprText (some r) = str "#[repr(" ++ r ++ str ")]\n" := rfl
    rw [htext] at h ⊢
    rw [show td.fmtRepr f
      = ((f.writeStr (str "#[repr(")).writeStr r).writeStr (str ")]\n")
      from by simp only [TypeDef.fmtRepr, hr]]
    obtain ⟨h1, _⟩ := noCR_split h
    rw [writeStr_merge_noCR f (str "#[repr(") r (by decide),
      writeStr_merge_noCR f (str "#[repr(" ++ r) _ h1]

theorem fmtParentsRest_text : ∀ (ps : List Ty) (f : Formatter),
    '\r' ∉ ps.flatMap (fun t => str " + " ++ tyText t) →
    fmtParentsRest ps f = f.writeStr (ps.flatMap fun t => str " + " ++ tyText t)
  | [], _, _ => rfl
  | t :: rest, f, h => by
    rw [List.flatMap_cons] at h ⊢
    obtain ⟨h1, h2⟩ := noCR_split h
    obtain ⟨_, h1b⟩ := noCR_split h1
    rw [show fmtParentsRest (t :: rest) f
      = fmtParentsRest rest (t.fmt (f.writeStr (str " + "))) from rfl,
      fmtParentsRest_text rest _ h2,
      tyFmt_text t _ h1b,
      writeStr_merge_noCR f (str " + ") (tyText t) (by decide),
      writeStr_merge_noCR f (str " + " ++ tyText t) _ h1]

theorem fmtParents_text : ∀ (ps : List Ty) (f : Formatter),
    '\r' ∉ parentsText ps → fmtParents ps f = f.writeStr (parentsText ps)
  | [], _, _ => rfl
  | t :: rest, f, h => by
    have htext : parentsText (t :: rest)
        = str ": " ++ (tyText t ++ rest.flatMap (fun x => str " + " ++ tyText x)) := by
      rw [parentsText, if_neg (by simp), List.map_cons,
        sepList_cons_flatMap, List.flatMap_map]
    rw [htext] at h ⊢
    obtain ⟨_, h2⟩ := noCR_split h
    obtain ⟨h2a, h2b⟩ := noCR_split h2
    rw [show fmtParents (t :: rest) f
      = fmtParentsRest rest (t.fmt (f.writeStr (str ": "))) from rfl,
      fmtParentsRest_text rest _ h2b,
      tyFmt_text t _ h2a,
      writeStr_merge_noCR f (str ": ") (tyText t) (by decide),
      writeStr_merge_noCR f (str ": " ++ tyText t) _ (by
        intro hm
        rcases List.mem_append.mp hm with hm | hm
        · exact absurd hm (by decide)
        · exact h2a hm),
      List.append_assoc]

theorem fmtBoundTysRest_text : ∀ (ts : List Ty) (f : Formatter),
    '\r' ∉ ts.flatMap (fun t => str " + " ++ tyText t) →
    fmtBoundTysRest ts f = f.writeStr (ts.flatMap fun t => str " + " ++ tyText t)
  | [], _, _ => rfl
  | t :: rest, f, h => by
    rw [List.flatMap_cons] at h ⊢
    obtain ⟨h1, h2⟩ := noCR_split h
    obtain ⟨_, h1b⟩ := noCR_split h1
    rw [show fmtBoundTysRest (t :: rest) f
      = fmtBoundTysRest rest (t.fmt (f.writeStr (str " + "))) from rfl,
      fmtBoundTysRest_text rest _ h2,
      tyFmt_text t _ h1b,
      writeStr_merge_noCR f (str " + ") (tyText t) (by decide),
      writeStr_merge_noCR f (str " + " ++ tyText t) _ h1]

theorem fmtBoundTys_text : ∀ (ts : List Ty) (f : Formatter),
    '\r' ∉ sepList (str " + ") (ts.map tyText) →
    fmtBoundTys ts f = f.writeStr (sepList (str " + ") (ts.map tyText))
  | [], _, _ => rfl
  | t :: rest, f, h => by
    have htext : sepList (str " + ") ((t :: rest).map tyText)
        = tyText t ++ rest.flatMap (fun x => str " + " ++ tyText x) := by
      rw [List.map_cons, sepList_cons_flatMap, List.flatMap_map]
    rw [htext] at h ⊢
    obtain ⟨h1, h2⟩ := noCR_split h
    rw [show fmtBoundTys (t :: rest) f = fmtBoundTysRest rest (t.fmt f) from rfl,
      fmtBoundTysRest_text rest _ h2,
      tyFmt_text t _ h1,
      writeStr_merge_noCR f (tyText t) _ h1]

theorem Bound.fmtBound_text (b : Bound) (ew : BoundEndsWith) (f : Formatter)
    (h : '\r' ∉ boundText b ew) : b.fmtBound ew f = f.writeStr (boundText b ew) := by
  by_cases hemp : b.bounds.isEmpty = true
  · have htext : boundText b ew = b.name ++ boundEndText ew := by
      simp only [boundText, if_pos hemp]
    rw [htext] at h ⊢
    obtain ⟨h1, _⟩ := noCR_split h
    cases ew with
    | semiColon =>
      rw [show b.fmtBound .semiColon f = (f.writeStr b.name).writeStr [';', '\n'] from
        by simp only [Bound.fmtBound, if_pos hemp],
        show boundEndText .semiColon = [';', '\n'] from rfl,
        writeStr_merge_noCR f b.name _ h1]
    | comma =>
      rw [show b.fmtBound .comma f = (f.writeStr b.name).writeStr [',', '\n'] from
        by simp only [Bound.fmtBound, if_pos hemp],
        show boundEndText .comma = [',', '\n'] from rfl,
        writeStr_merge_noCR f b.name _ h1]
  · have htext : boundText b ew
        = b.name ++ [':'] ++ sepList (str " + ") (b.bounds.map tyText)
          ++ boundEndText ew := by
      simp only [boundText, if_neg hemp]
    rw [htext] at h ⊢
    obtain ⟨h123, _⟩ := noCR_split h
    obtain ⟨h12, h3⟩ := noCR_split h123
    obtain ⟨h1, _⟩ := noCR_split h12
    cases ew with
    | semiColon =>
      rw [show b.fmtBound .semiColon f
        = (fmtBoundTys b.bounds ((f.writeStr b.name).writeStr [':'])).writeStr [';', '\n']
        from by simp only [Bound.fmtBound, if_neg hemp],
        show boundEndText .semiColon = [';', '\n'] from rfl,
        fmtBoundTys_text b.bounds _ h3,
        writeStr_merge_noCR f b.name [':'] h1,
        writeStr_merge_noCR f (b.name ++ [':']) _ h12,
        writeStr_merge_noCR f (b.name ++ [':'] ++ sepList (str " + ") (b.bounds.map tyText)) _ h123]
    | comma =>
      rw [show b.fmtBound .comma f
        = (fmtBoundTys b.bounds ((f.writeStr b.name).writeStr [':'])).writeStr [',', '\n']
        from by simp only [Bound.fmtBound, if_neg hemp],
        show boundEndText .comma = [',', '\n'] from rfl,
        fmtBoundTys_text b.bounds _ h3,
        writeStr_merge_noCR f b.name [':'] h1,
        writeStr_merge_noCR f (b.name ++ [':']) _ h12,
        writeStr_merge_noCR f (b.name ++ [':'] ++ sepList (str " + ") (b.bounds.map tyText)) _ h123]

theorem fmtBoundsLoop_text : ∀ (bs : List Bound) (f : Formatter),
    '\r' ∉ bs.flatMap (fun b => boundText b .comma) →
    fmtBoundsLoop bs f = f.writeStr (bs.flatMap fun b => boundText b .comma)
  | [], _, _ => rfl
  | b :: rest, f, h => by
    rw [List.flatMap_cons] at h ⊢
    obtain ⟨h1, h2⟩ := noCR_split h
    rw [show fmtBoundsLoop (b :: rest) f = fmtBoundsLoop rest (b.fmtBound .comma f) from rfl,
      fmtBoundsLoop_text rest _ h2,
      Bound.fmtBound_text b .comma f h1,
      writeStr_merge_noCR f (boundText b .comma) _ h1]

theorem Bounds.fmtBounds_text (bs : Bounds) (f : Formatter)
    (h : '\r' ∉ boundsText bs) : bs.fmtBounds f = f.writeStr (boundsText bs) := by
  by_cases hemp : bs.bounds.isEmpty = true
  · rw [show bs.fmtBounds f = f from by simp only [Bounds.fmtBounds, if_pos hemp],
      show boundsText bs = [] from by simp only [boundsText, if_pos hemp],
      Formatter.writeStr_nil]
  · have htext : boundsText bs
        = str "\nwhere\n" ++ bs.bounds.flatMap (fun b => boundText b .comma) := by
      simp only [boundsText, if_neg hemp]
    rw [htext] at h ⊢
    obtain ⟨_, h2⟩ := noCR_split h
    rw [show bs.fmtBounds f = fmtBoundsLoop bs.bounds (f.writeStr (str "\nwhere\n")) from
      by simp only [Bounds.fmtBounds, if_neg hemp],
      fmtBoundsLoop_text bs.bounds _ h2,
      writeStr_merge_noCR f (str "\nwhere\n") _ (by decide)]

/-! ## Claim C6 -/
/-- C6 as stated fails: a constraint with one requirement renders with a bare
colon, not a colon followed by a space — `T:Foo,\n`, not `T: Foo,\n`. -/
theorem C6_counterexample :
    (Bound.fmtBound ⟨str "T", [Ty.new (str "Foo")]⟩ .comma (Formatter.new [])).dst
      = str "T:Foo,\n"
    ∧ (Bound.fmtBound ⟨str "T", [Ty.new (str "Foo")]⟩ .comma (Formatter.new [])).dst
      ≠ str "T: Foo,\n" := by
  have htext : boundText ⟨str "T", [Ty.new (str "Foo")]⟩ .comma = str "T:Foo,\n" := by
    simp only [boundText, boundEndText, Ty.new, tyText, genericsText, tyListText,
      sepList, List.map_cons, List.map_nil]
    decide
  have he := Bound.fmtBound_text ⟨str "T", [Ty.new (str "Foo")]⟩ .comma
    (Formatter.new []) (by rw [htext]; decide)
  rw [he, htext]
  constructor
  · decide
  · decide

/-- C6 (amended): a constraint with zero requirements renders as the bare
subject; with requirements it renders as `subject:` immediately followed by
the `" + "`-joined requirements (no space after the colon); each line ends in
`",\n"` in where-clause mode and `";\n"` in associated-type mode; a non-empty
constraint set writes `"\nwhere\n"` then one constraint per line; an empty
one writes nothing. -/
theorem C6_constraint_rendering (b : Bound) (ew : BoundEndsWith) (bs : Bounds)
    (f : Formatter) (hb : '\r' ∉ boundText b ew) (hbs : '\r' ∉ boundsText bs) :
    b.fmtBound ew f = f.writeStr (boundText b ew)
    ∧ (b.bounds = [] → boundText b ew = b.name ++ boundEndText ew)
    ∧ (b.bounds ≠ [] →
        boundText b ew
          = b.name ++ [':'] ++ sepList (str " + ") (b.bounds.map tyText)
            ++ boundEndText ew)
    ∧ boundEndText .comma = [',', '\n']
    ∧ boundEndText .semiColon = [';', '\n']
    ∧ bs.fmtBounds f = f.writeStr (boundsText bs)
    ∧ (bs.bounds ≠ [] →
        boundsText bs
          = str "\nwhere\n" ++ bs.bounds.flatMap (fun b0 => boundText b0 .comma))
    ∧ Bounds.fmtBounds ⟨[]⟩ f = f := by
  refine ⟨Bound.fmtBound_text b ew f hb, ?_, ?_, rfl, rfl,
    Bounds.fmtBounds_text bs f hbs, ?_, rfl⟩
  · intro hemp
    simp only [boundText, hemp, List.isEmpty_nil, if_pos]
  · intro hne
    unfold boundText
    rw [if_neg (by simpa [List.isEmpty_iff] using hne)]
  · intro hne
    unfold boundsText
    rw [if_neg (by simpa [List.isEmpty_iff] using hne)]

theorem C6_constraint_rendering_witness :
    Bound.fmtBound ⟨str "T", []⟩ .semiColon (Formatter.new [])
        = (Formatter.new []).writeStr (boundText ⟨str "T", []⟩ .semiColon)
    ∧ boundText ⟨str "T", []⟩ .semiColon = str "T" ++ boundEndText .semiColon
    ∧ Bounds.fmtBounds ⟨[⟨str "T", []⟩]⟩ (Formatter.new [])
        = (Formatter.new []).writeStr (boundsText ⟨[⟨str "T", []⟩]⟩) := by
  have h := C6_constraint_rendering ⟨str "T", []⟩ .semiColon ⟨[⟨str "T", []⟩]⟩
    (Formatter.new []) (by decide) (by decide)
  exact ⟨h.1, h.2.1 rfl, h.2.2.2.2.2.1⟩

/-! ## Claim C5 -/
/-- The header render equals one write of the concatenated section texts in
the fixed order. -/
theorem TypeDef.fmtHead_text (td : TypeDef) (keyword : Str) (parents : List Ty)
    (f : Formatter) (h : '\r' ∉ headText td keyword parents) :
    td.fmtHead keyword parents f = f.writeStr (headText td keyword parents) := by
  rw [headText] at h
  obtain ⟨h10, hB⟩ := noCR_split h
  obtain ⟨h9, hP⟩ := noCR_split h10
  obtain ⟨h8, hT⟩ := noCR_split h9
  obtain ⟨h7, hSp⟩ := noCR_split h8
  obtain ⟨h6, hK⟩ := noCR_split h7
  obtain ⟨h5, hV⟩ := noCR_split h6
  obtain ⟨h4, hAt⟩ := noCR_split h5
  obtain ⟨h3, hR⟩ := noCR_split h4
  obtain ⟨h2, hDe⟩ := noCR_split h3
  obtain ⟨h1, hAl⟩ := noCR_split h2
  rw [show td.fmtHead keyword parents f
    = td.bounds.fmtBounds (fmtParents parents (Ty.fmt td.ty
        ((((td.vis.fmt (td.attrs.fmtAttrs (td.fmtRepr (td.fmtDerive
          (td.fmtAllow (td.docs.fmtDocs f)))))).writeStr keyword).writeStr [' '])))) from rfl]
  rw [Docs.fmtDocs_text td.docs f h1,
    TypeDef.fmtAllow_text td _ hAl,
    writeStr_merge_noCR f _ _ h1,
    TypeDef.fmtDerive_text td _ hDe,
    writeStr_merge_noCR f _ _ h2,
    TypeDef.fmtRepr_text td _ hR,
    writeStr_merge_noCR f _ _ h3,
    Attributes.fmtAttrs_text td.attrs _ hAt,
    writeStr_merge_noCR f _ _ h4,
    visFmt_text td.vis _,
    writeStr_merge_noCR f _ _ h5,
    writeStr_merge_noCR f _ _ h6,
    writeStr_merge_noCR f _ _ h7,
    tyFmt_text td.ty _ hT,
    writeStr_merge_noCR f _ _ h8,
    fmtParents_text parents _ hP,
    writeStr_merge_noCR f _ _ h9,
    Bounds.fmtBounds_text td.bounds _ hB,
    writeStr_merge_noCR f _ _ h10,
    headText]

/-- C5: every `TypeHeader`-bearing item renders its header as
documentation → lint-allows → one combined derive line → representation
hint → free attributes → visibility token with trailing space → keyword and
identity expression → parent list (`": "` then `" + "`-joined) → constraint
set, each empty section skipped (the skipping is part of each section text);
and the result depends only on the builder state, with the builder calls for
distinct sections commuting, so the call order cannot change the output. -/
theorem C5_fixed_emission_order (td : TypeDef) (keyword : Str) (parents : List Ty)
    (f : Formatter) (d a r l x : Str) (v : Vis)
    (h : '\r' ∉ headText td keyword parents) :
    td.fmtHead keyword parents f = f.writeStr (headText td keyword parents)
    ∧ (td.pushDerive d).pushAllow a = (td.pushAllow a).pushDerive d
    ∧ (td.pushDerive d).setRepr r = (td.setRepr r).pushDerive d
    ∧ (td.pushDerive d).pushDoc l = (td.pushDoc l).pushDerive d
    ∧ (td.pushAllow a).setRepr r = (td.setRepr r).pushAllow a
    ∧ (td.pushAllow a).pushDoc l = (td.pushDoc l).pushAllow a
    ∧ (td.setRepr r).pushDoc l = (td.pushDoc l).setRepr r
    ∧ (td.pushAttr x).pushDoc l = (td.pushDoc l).pushAttr x
    ∧ (td.pushAttr x).pushDerive d = (td.pushDerive d).pushAttr x
    ∧ (td.setVis v).pushDerive d = (td.pushDerive d).setVis v :=
  ⟨TypeDef.fmtHead_text td keyword parents f h,
    rfl, rfl, rfl, rfl, rfl, rfl, rfl, rfl, rfl⟩

theorem C5_fixed_emission_order_witness :
    (⟨Ty.mk (str "Foo") [] [] [], .Pub, ⟨[str "Doc"]⟩, [str "Debug"],
      [str "dead_code"], some (str "C"), ⟨[]⟩, ⟨[str "#[x]"]⟩⟩ : TypeDef).fmtHead
        (str "struct") [Ty.mk (str "Bar") [] [] []] (Formatter.new [])
      = (Formatter.new []).writeStr
          (headText ⟨Ty.mk (str "Foo") [] [] [], .Pub, ⟨[str "Doc"]⟩, [str "Debug"],
            [str "dead_code"], some (str "C"), ⟨[]⟩, ⟨[str "#[x]"]⟩⟩ (str "struct")
            [Ty.mk (str "Bar") [] [] []]) :=
  (C5_fixed_emission_order
    ⟨Ty.mk (str "Foo") [] [] [], .Pub, ⟨[str "Doc"]⟩, [str "Debug"],
      [str "dead_code"], some (str "C"), ⟨[]⟩, ⟨[str "#[x]"]⟩⟩
    (str "struct") [Ty.mk (str "Bar") [] [] []] (Formatter.new [])
    (str "d") (str "a") (str "r") (str "l") (str "x") .Pub
    (by
      simp only [headText, tyText, genericsText, tyListText, parentsText, sepList,
        List.map_cons, List.map_nil]
      decide)).1

mutual
theorem Body.fmt_ok : ∀ (b : Body) (f : Formatter), ∃ g, Body.fmt b f = .ok g
  | .line s, f => ⟨(f.writeStr s).writeStr ['\n'], by simp only [Body.fmt]⟩
  | .blk inner, f => by
    obtain ⟨g, hg⟩ := Body.fmtList_ok inner (blockOpen f)
    refine ⟨({ g with spaces := g.spaces - g.indent }).writeStr ['\x7d', '\n'], ?_⟩
    simp only [Body.fmt, hg]

theorem Body.fmtList_ok : ∀ (bs : List Body) (f : Formatter),
    ∃ g, Body.fmtList bs f = .ok g
  | [], f => ⟨f, by simp only [Body.fmtList]⟩
  | b :: rest, f => by
    obtain ⟨g, hg⟩ := Body.fmt_ok b f
    obtain ⟨g2, hg2⟩ := Body.fmtList_ok rest g
    exact ⟨g2, by simp only [Body.fmtList, hg, hg2]⟩
end

/-! ## Claim C8 -/
/-- C8 as stated fails: a callable whose body is present can still fail to
render — in interface context with a public visibility the `InvalidVisibility`
assertion fires first. -/
theorem C8_counterexample :
    (⟨str "f", ⟨[]⟩, none, .Pub, ⟨[], []⟩, none, [], none, ⟨[]⟩, some [],
        ⟨[]⟩, none, false⟩ : Function).body = some []
    ∧ Function.fmt
        ⟨str "f", ⟨[]⟩, none, .Pub, ⟨[], []⟩, none, [], none, ⟨[]⟩, some [],
          ⟨[]⟩, none, false⟩ true (Formatter.new [])
        = .error .invalidVisibility := by
  exact ⟨rfl, rfl⟩

/-- C8 (amended): provided the callable passes the interface visibility
check (its visibility is private whenever it is rendered in interface
context): a present body renders as the header followed by a block holding
the body entries in insertion order, and succeeds; an absent body renders as
the header followed by a bare `";\n"` in interface context, and fails with
`MissingBody` in every non-interface context. -/
theorem C8_body_rendering (fn : Function) (isTrait : Bool) (f : Formatter)
    (hvis : isTrait = true → fn.vis = Vis.Private) :
    (∀ bs, fn.body = some bs →
        Function.fmt fn isTrait f
          = (fn.fmtHeaderPost (fn.fmtHeaderPre f)).blockE (Body.fmtList bs)
        ∧ (Function.fmt fn isTrait f).isOk = true)
    ∧ (fn.body = none → isTrait = true →
        Function.fmt fn true f
          = .ok ((fn.fmtHeaderPost (fn.fmtHeaderPre f)).writeStr (str ";\n")))
    ∧ (fn.body = none → isTrait = false →
        Function.fmt fn false f = .error .missingBody) := by
  have hcond : ¬(isTrait ∧ fn.vis ≠ Vis.Private) := by
    cases isTrait with
    | false => simp
    | true => simp [hvis rfl]
  refine ⟨?_, ?_, ?_⟩
  · intro bs hbs
    have heq : Function.fmt fn isTrait f
        = (fn.fmtHeaderPost (fn.fmtHeaderPre f)).blockE (Body.fmtList bs) := by
      unfold Function.fmt
      rw [if_neg hcond, hbs]
    refine ⟨heq, ?_⟩
    rw [heq]
    obtain ⟨g, hg⟩ := Body.fmtList_ok bs (blockOpen (fn.fmtHeaderPost (fn.fmtHeaderPre f)))
    simp [Formatter.blockE, hg, Except.isOk, Except.toBool]
  · intro hbs htr
    subst htr
    unfold Function.fmt
    rw [if_neg hcond, hbs]
    rfl
  · intro hbs htr
    subst htr
    unfold Function.fmt
    rw [if_neg (by simp), hbs]
    rfl

theorem C8_body_rendering_witness :
    ((Function.new (str "f")).body = some []
      ∧ (Function.fmt (Function.new (str "f")) false (Formatter.new [])).isOk = true)
    ∧ ((Function.newTraitFn (str "g")).body = none
      ∧ Function.fmt (Function.newTraitFn (str "g")) false (Formatter.new [])
          = .error .missingBody) := by
  have h1 := C8_body_rendering (Function.new (str "f")) false (Formatter.new [])
    (fun h => by cases h)
  have h2 := C8_body_rendering (Function.newTraitFn (str "g")) false (Formatter.new [])
    (fun h => by cases h)
  exact ⟨⟨rfl, (h1.1 [] rfl).2⟩, ⟨rfl, h2.2.2 rfl rfl⟩⟩

/-! ## Claim C9 -/
/-- C9: rendering a callable in interface context with any non-private
visibility fails with `InvalidVisibility`; with the private default it
renders no visibility token and rendering succeeds. -/
theorem C9_trait_visibility (fn : Function) (f : Formatter) :
    (fn.vis ≠ Vis.Private → Function.fmt fn true f = .error .invalidVisibility)
    ∧ (fn.vis = Vis.Private →
        Vis.fmt Vis.Private f = f
        ∧ (Function.fmt fn true f).isOk = true) := by
  constructor
  · intro hvis
    unfold Function.fmt
    rw [if_pos ⟨rfl, hvis⟩]
  · intro hvis
    refine ⟨rfl, ?_⟩
    have hcond : ¬((true : Bool) ∧ fn.vis ≠ Vis.Private) := by simp [hvis]
    unfold Function.fmt
    rw [if_neg hcond]
    cases hbs : fn.body with
    | some bs =>
      obtain ⟨g, hg⟩ := Body.fmtList_ok bs
        (blockOpen (fn.fmtHeaderPost (fn.fmtHeaderPre f)))
      simp [Formatter.blockE, hg, Except.isOk, Except.toBool]
    | none => rfl

theorem C9_trait_visibility_witness :
    Function.fmt { Function.new (str "f") with vis := .Pub } true (Formatter.new [])
        = .error .invalidVisibility
    ∧ Vis.fmt Vis.Private (Formatter.new []) = Formatter.new []
    ∧ (Function.fmt (Function.newTraitFn (str "g")) true (Formatter.new [])).isOk
        = true := by
  have h1 := (C9_trait_visibility { Function.new (str "f") with vis := .Pub }
    (Formatter.new [])).1 (by decide)
  have h2 := (C9_trait_visibility (Function.newTraitFn (str "g"))
    (Formatter.new [])).2 rfl
  exact ⟨h1, h2.1, h2.2⟩

/-! ## Claim C7 -/
/-- C7: pending imports are grouped by exact path equality; a path with
several distinct names gets one brace-group statement, a path with one name
a bare qualified statement; in particular the three imports `("bar","Bar")`,
`("bar","Baz")`, `("bar::quux","Quuuux")` with no items render exactly two
statements. -/
theorem C7_import_consolidation :
    renderImportLines [(str "bar", str "Bar"), (str "bar", str "Baz"),
        (str "bar::quux", str "Quuuux")]
      = [str "use bar::\x7bBar, Baz\x7d;\n", str "use bar::quux::Quuuux;\n"]
    ∧ ((((⟨[]⟩ : Scope).importPair (str "bar") (str "Bar")).importPair
          (str "bar") (str "Baz")).importPair
          (str "bar::quux") (str "Quuuux")).renderImports
      = str "use bar::\x7bBar, Baz\x7d;\nuse bar::quux::Quuuux;\n"
    ∧ (renderImportLines [(str "bar", str "Bar"), (str "bar", str "Baz"),
        (str "bar::quux", str "Quuuux")]).length = 2
    ∧ (∀ ps : List (Str × Str),
        (renderImportLines ps).length = (dedupFirst (ps.map Prod.fst)).length) := by
  refine ⟨by decide, by decide, by decide, fun ps => ?_⟩
  unfold renderImportLines
  rw [List.length_map]

end Codegen
